import Mathlib

/-!
Verification of the AOSR8 CLI helper (an editor plugin providing prefix-tree
based command autocompletion and token classification for a networking CLI
dialect).

The development shallowly embeds the two plugin variants found in the sources:

* the nested-dictionary normalizer `normalizeTree` together with the
  suggestion engine (`onTrigger`, `getSuggestions`, `selectSuggestion`);
* the flat-dictionary builder `buildTreeFromR04` with its `_desc` metadata
  markers and the corresponding suggestion engine;
* the code-block token classifier.

Strings from the host editor are modelled with Lean `String`/`List Char`;
JavaScript's `toLowerCase` is modelled by the ASCII letter table (all inputs
appearing in the command dictionary and the CLI dialect are ASCII), and the
regular expressions of the source are modelled by equivalent executable
predicates.
-/

namespace Aosr8

/-- Whitespace test: the model of both the `\s` regex class and of the
whitespace trimming done by `trim`/`trimStart`. -/
def isWs (c : Char) : Bool := c.isWhitespace

/-- Model of JavaScript `toLowerCase` on a single character: ASCII uppercase
letters map to their lowercase counterparts, everything else is unchanged. -/
def jsToLower (c : Char) : Char :=
  match c with
  | 'A' => 'a' | 'B' => 'b' | 'C' => 'c' | 'D' => 'd' | 'E' => 'e' | 'F' => 'f'
  | 'G' => 'g' | 'H' => 'h' | 'I' => 'i' | 'J' => 'j' | 'K' => 'k' | 'L' => 'l'
  | 'M' => 'm' | 'N' => 'n' | 'O' => 'o' | 'P' => 'p' | 'Q' => 'q' | 'R' => 'r'
  | 'S' => 's' | 'T' => 't' | 'U' => 'u' | 'V' => 'v' | 'W' => 'w' | 'X' => 'x'
  | 'Y' => 'y' | 'Z' => 'z'
  | c => c

/-- Lowercase a whole string (JavaScript `s.toLowerCase()`). -/
def lowerStr (s : String) : String := ⟨s.data.map jsToLower⟩

/-- Lowering a character never changes whether it is whitespace. -/
theorem isWs_jsToLower (c : Char) : isWs (jsToLower c) = isWs c := by
  unfold jsToLower
  split <;> rfl

/-- Lowering either fixes a character or yields one of the 26 lowercase
ASCII letters. -/
theorem jsToLower_cases (c : Char) :
    jsToLower c = c ∨
      jsToLower c ∈
        (['a', 'b', 'c', 'd', 'e', 'f', 'g', 'h', 'i', 'j', 'k', 'l', 'm',
          'n', 'o', 'p', 'q', 'r', 's', 't', 'u', 'v', 'w', 'x', 'y',
          'z'] : List Char) := by
  unfold jsToLower
  split <;> first | (left ; rfl) | (right ; decide)

theorem jsToLower_idem (c : Char) : jsToLower (jsToLower c) = jsToLower c := by
  have h2 :
      ∀ d ∈ (['a', 'b', 'c', 'd', 'e', 'f', 'g', 'h', 'i', 'j', 'k', 'l',
        'm', 'n', 'o', 'p', 'q', 'r', 's', 't', 'u', 'v', 'w', 'x', 'y',
        'z'] : List Char), jsToLower d = d := by decide
  rcases jsToLower_cases c with h | h
  · rw [h]; exact h
  · exact h2 _ h

/-- Strip leading whitespace (JavaScript `trimStart`). -/
def ltrim (l : List Char) : List Char := l.dropWhile isWs

/-- Strip whitespace at both ends (JavaScript `trim`). -/
def trimChars (l : List Char) : List Char :=
  ((l.dropWhile isWs).reverse.dropWhile isWs).reverse

/-- Worker for `splitWs`: scans the characters accumulating the current piece
(in reverse); a whitespace character ends the current piece unless we are
already inside a whitespace run. This reproduces JavaScript
`s.split(/\s+/)` exactly, including the empty boundary pieces: splitting
the empty string gives one empty piece, and leading/trailing whitespace
runs produce empty pieces. -/
def splitWsGo : List Char → List Char → Bool → List String
  | [], acc, _ => [String.mk acc.reverse]
  | c :: cs, acc, inWs =>
    if isWs c then
      if inWs then splitWsGo cs acc true
      else String.mk acc.reverse :: splitWsGo cs [] true
    else splitWsGo cs (c :: acc) false

/-- Model of JavaScript `s.split(/\s+/)`. -/
def splitWs (s : String) : List String := splitWsGo s.data [] false

example : splitWs "show ip  isis" = ["show", "ip", "isis"] := rfl
example : splitWs "" = [""] := rfl
example : splitWs " " = ["", ""] := rfl
example : splitWs " a " = ["", "a", ""] := rfl

/-- Prefix test on strings (JavaScript `s.startsWith(q)`). -/
def strStartsWith (s q : String) : Bool := q.data.isPrefixOf s.data

/-- Lexicographic comparison of character lists by code point; on the ASCII
strings of the command dictionary this is exactly the comparison used by
JavaScript's default `Array.prototype.sort()`. -/
def lexLe : List Char → List Char → Bool
  | [], _ => true
  | _ :: _, [] => false
  | a :: as, b :: bs => if a = b then lexLe as bs else decide (a.toNat < b.toNat)

/-- String comparison used to model `.sort()`. -/
def strLeP (a b : String) : Prop := lexLe a.data b.data = true

instance : DecidableRel strLeP := fun a b => by
  unfold strLeP; exact inferInstance

/-- The characters of equal code point are equal. -/
theorem Char.toNat_injective {a b : Char} (h : a.toNat = b.toNat) : a = b := by
  apply Char.ext
  exact UInt32.toNat.inj h

theorem lexLe_total (as bs : List Char) :
    lexLe as bs = true ∨ lexLe bs as = true := by
  induction as generalizing bs with
  | nil => left; rfl
  | cons a as ih =>
    cases bs with
    | nil => right; rfl
    | cons b bs =>
      by_cases hab : a = b
      · subst hab
        simpa [lexLe] using ih bs
      · have hne : a.toNat ≠ b.toNat := fun h => hab (Char.toNat_injective h)
        rcases Nat.lt_or_ge a.toNat b.toNat with h | h
        · left; simp [lexLe, hab, h]
        · right
          have hba : b ≠ a := fun e => hab e.symm
          have : b.toNat < a.toNat := lt_of_le_of_ne h (Ne.symm hne)
          simp [lexLe, hba, this]

theorem lexLe_trans {as bs cs : List Char} (h1 : lexLe as bs = true)
    (h2 : lexLe bs cs = true) : lexLe as cs = true := by
  induction as generalizing bs cs with
  | nil => rfl
  | cons a as ih =>
    cases bs with
    | nil => simp [lexLe] at h1
    | cons b bs =>
      cases cs with
      | nil => simp [lexLe] at h2
      | cons c cs =>
        by_cases hab : a = b <;> by_cases hbc : b = c
        · subst hab; subst hbc
          simp [lexLe] at h1 h2 ⊢
          exact ih h1 h2
        · subst hab
          simp [lexLe, hbc] at h2 ⊢
          exact h2
        · subst hbc
          simp [lexLe, hab] at h1 ⊢
          exact h1
        · simp [lexLe, hab, hbc] at h1 h2
          have hac : a.toNat < c.toNat := Nat.lt_trans h1 h2
          have hne : a ≠ c := by
            intro e; subst e
            exact Nat.lt_irrefl _ hac
          simp [lexLe, hne, hac]

theorem lexLe_antisymm {as bs : List Char} (h1 : lexLe as bs = true)
    (h2 : lexLe bs as = true) : as = bs := by
  induction as generalizing bs with
  | nil =>
    cases bs with
    | nil => rfl
    | cons b bs => simp [lexLe] at h2
  | cons a as ih =>
    cases bs with
    | nil => simp [lexLe] at h1
    | cons b bs =>
      by_cases hab : a = b
      · subst hab
        simp [lexLe] at h1 h2
        rw [ih h1 h2]
      · have hba : b ≠ a := fun e => hab e.symm
        simp [lexLe, hab] at h1
        simp [lexLe, hba] at h2
        omega

instance : IsTotal String strLeP := ⟨fun a b => lexLe_total a.data b.data⟩

instance : IsTrans String strLeP :=
  ⟨fun _ _ _ h1 h2 => lexLe_trans h1 h2⟩

theorem strLeP_antisymm {a b : String} (h1 : strLeP a b) (h2 : strLeP b a) :
    a = b := by
  cases a; cases b
  exact congrArg String.mk (lexLe_antisymm h1 h2)

/-! ## Association lists as JavaScript objects

JavaScript objects enumerate their (string) keys in insertion order, so a
node's entries are modelled as an association list; assignment replaces the
value of an existing key in place and otherwise appends the new key at the
end, exactly as a property write does. -/

/-- The property write `o[k] = v`. -/
def setAssoc {β : Type} : List (String × β) → String → β → List (String × β)
  | [], k, v => [(k, v)]
  | (k', w) :: rest, k, v =>
    if k' = k then (k, v) :: rest else (k', w) :: setAssoc rest k v

theorem lookup_setAssoc_self {β : Type} (cs : List (String × β)) (k : String)
    (v : β) : List.lookup k (setAssoc cs k v) = some v := by
  induction cs with
  | nil => simp [setAssoc, List.lookup]
  | cons p rest ih =>
    obtain ⟨k', w⟩ := p
    by_cases h : k' = k
    · subst h
      simp [setAssoc, List.lookup]
    · simp only [setAssoc, if_neg h]
      have : (k == k') = false := by
        simp [beq_eq_false_iff_ne]
        exact fun e => h e.symm
      simp [List.lookup, this, ih]

theorem lookup_setAssoc_ne {β : Type} (cs : List (String × β))
    {k' k : String} (v : β) (h : k' ≠ k) :
    List.lookup k' (setAssoc cs k v) = List.lookup k' cs := by
  induction cs with
  | nil =>
    have : (k' == k) = false := by simpa [beq_eq_false_iff_ne] using h
    simp [setAssoc, List.lookup, this]
  | cons p rest ih =>
    obtain ⟨k0, w⟩ := p
    by_cases h0 : k0 = k
    · subst h0
      have h1 : (k' == k0) = false := by simpa [beq_eq_false_iff_ne] using h
      simp [setAssoc, List.lookup, h1]
    · simp [setAssoc, if_neg h0, List.lookup, ih]

theorem mem_setAssoc {β : Type} {cs : List (String × β)} {k : String}
    {v : β} {p : String × β} :
    p ∈ setAssoc cs k v → p = (k, v) ∨ p ∈ cs := by
  induction cs with
  | nil => intro h; simpa [setAssoc] using h
  | cons q rest ih =>
    obtain ⟨k0, w⟩ := q
    intro h
    by_cases h0 : k0 = k
    · subst h0
      simp only [setAssoc, if_pos rfl] at h
      cases h with
      | head => exact Or.inl rfl
      | tail b h1 => exact Or.inr (List.mem_cons_of_mem _ h1)
    · simp only [setAssoc, if_neg h0] at h
      cases h with
      | head => exact Or.inr (List.mem_cons_self _ _)
      | tail b h1 =>
        rcases ih h1 with h' | h'
        · exact Or.inl h'
        · exact Or.inr (List.mem_cons_of_mem _ h')

theorem keys_setAssoc {β : Type} (cs : List (String × β)) (k : String)
    (v : β) :
    (setAssoc cs k v).map Prod.fst =
      if k ∈ cs.map Prod.fst then cs.map Prod.fst
      else cs.map Prod.fst ++ [k] := by
  induction cs with
  | nil => simp [setAssoc]
  | cons p rest ih =>
    obtain ⟨k0, w⟩ := p
    by_cases h0 : k0 = k
    · subst h0
      simp [setAssoc]
    · have hne : ¬k = k0 := fun e => h0 e.symm
      by_cases hmem : k ∈ rest.map Prod.fst
      · simp [setAssoc, if_neg h0, ih, hmem, hne]
      · simp [setAssoc, if_neg h0, ih, hmem, hne]

theorem lookup_mem {β : Type} {cs : List (String × β)} {k : String} {v : β}
    (h : List.lookup k cs = some v) : (k, v) ∈ cs := by
  induction cs with
  | nil => simp [List.lookup] at h
  | cons p rest ih =>
    obtain ⟨k0, w⟩ := p
    by_cases h0 : (k == k0)
    · have hk : k = k0 := by simpa [beq_iff_eq] using h0
      subst hk
      simp [List.lookup] at h
      simp [h]
    · have h1 : (k == k0) = false := by simpa using h0
      simp [List.lookup, h1] at h
      exact List.mem_cons_of_mem _ (ih h)

/-! ## The prefix tree of the nested-dictionary normalizer

In the source (`main.ts`) tree nodes are plain JavaScript objects whose
entries map a token to a child node; there is no metadata field in this
variant. Insertion order of the keys is observable (`Object.keys`), so
children are modelled as an association list. -/

/-- A prefix-tree node of the `normalizeTree` variant: the association list
of child edges, in insertion order, exactly like a JavaScript object. -/
inductive CNode where
  | mk : List (String × CNode) → CNode

/-- Child list of a node. -/
def CNode.children : CNode → List (String × CNode)
  | .mk cs => cs

/-- Edge labels of a node, in insertion order (JavaScript `Object.keys`). -/
def CNode.keys (t : CNode) : List String := t.children.map Prod.fst

/-- Child lookup (JavaScript `node[tok]`, `undefined` becoming `none`). -/
def lookupChild (t : CNode) (k : String) : Option CNode :=
  List.lookup k t.children

/-- Assignment `node[k] = c` at the node level. -/
def setChild (t : CNode) (k : String) (c : CNode) : CNode :=
  .mk (setAssoc t.children k c)

/-- The node reached from `t` by following the given tokens, walking through
existing children and through fresh empty nodes where an edge is missing.
Together with `setPath` this models the `temp = temp[part]` walk of
`normalizeTree` that creates missing nodes along the way. -/
def getPath : CNode → List String → CNode
  | t, [] => t
  | t, p :: ps => getPath ((lookupChild t p).getD (.mk [])) ps

/-- Functional image of the mutating walk: replace the node at the end of the
token path by `c`, creating intermediate nodes exactly where
`normalizeTree`'s loop would (`if (!temp[part]) temp[part] = {}`). -/
def setPath : CNode → List String → CNode → CNode
  | _, [], c => c
  | t, p :: ps, c => setChild t p (setPath ((lookupChild t p).getD (.mk [])) ps c)

/-! ## Raw dictionary values

The raw dictionary of `normalizeTree` is arbitrary deserialized JSON. Only
four shapes matter to the code: nested objects (recursed into), arrays
(recognised by `Array.isArray`, only the `_options` array of strings is ever
read), `null` (which passes the `typeof x === 'object'` test but yields no
keys), and all remaining primitives. Objects are mutually inductive with
their field lists so that the traversal below is structurally recursive. -/

mutual
inductive Raw where
  | obj (fields : RawFields)
  | arr (items : List String)
  | nul
  | prim

inductive RawFields where
  | nil
  | cons (key : String) (val : Raw) (rest : RawFields)
end

/-- Field lookup on a raw object. -/
def RawFields.lookup : RawFields → String → Option Raw
  | .nil, _ => none
  | .cons k v rest, key => if k = key then some v else rest.lookup key

/-- The test `typeof x === 'object' && !Array.isArray(x)` guarding the
recursion of `normalizeTree` (`null` passes it in JavaScript). -/
def isRecObj : Raw → Bool
  | .obj _ => true
  | .nul => true
  | _ => false

/-- The `_options` list the source reads: note that `traverse` in the source
closes over the top-level `raw`, so lookups of `_options` always happen on
the whole raw dictionary, never on the current level (`raw._options` where
`currentRaw._options` was evidently intended). The guard
`raw._options && Array.isArray(raw._options)` only accepts array values. -/
def topOptions (raw : Raw) : List String :=
  match raw with
  | .obj fs =>
    match fs.lookup "_options" with
    | some (.arr items) => items
    | _ => []
  | _ => []

/-- The options loop: `raw._options.forEach(opt => { const o =
opt.toLowerCase(); if (!currentRoot[o]) currentRoot[o] = {}; })`. -/
def addOpts (opts : List String) (t : CNode) : CNode :=
  opts.foldl
    (fun acc o =>
      match lookupChild acc (lowerStr o) with
      | some _ => acc
      | none => setChild acc (lowerStr o) (.mk []))
    t

/-- Tokenization of a dictionary key: `key.toLowerCase().split(/\s+/)`. -/
def tokenizeKey (k : String) : List String := splitWs (lowerStr k)

mutual
/-- The recursive `traverse(currentRaw, currentRoot)` of `normalizeTree`:
process each key of the current raw level, then run the options loop —
which, through the closure slip described at `topOptions`, always consults
the top-level `_options` array (passed here as `topOpts`). -/
def traverse (topOpts : List String) : Raw → CNode → CNode
  | .obj fs, t => addOpts topOpts (goFields topOpts fs t)
  | .nul, t => addOpts topOpts t
  | .arr _, t => t
  | .prim, t => t

/-- The `for (const key in currentRaw)` loop body of `traverse`: skip the
sentinel key, split the key into lowercased tokens, walk/create the node
chain, and recurse into the value at the final node when it is a
non-array object. -/
def goFields (topOpts : List String) : RawFields → CNode → CNode
  | .nil, t => t
  | .cons k v rest, t =>
    let t' :=
      if k = "_options" then t
      else
        match tokenizeKey k with
        | [] => t
        | parts =>
          let fin := getPath t parts
          let fin' := if isRecObj v then traverse topOpts v fin else fin
          setPath t parts fin'
    goFields topOpts rest t'
end

/-- The normalizer `normalizeTree(raw)` of `main.ts`: build the canonical
prefix tree from the nested raw dictionary, starting from a fresh root. -/
def normalizeTree (raw : Raw) : CNode :=
  traverse (topOptions raw) raw (.mk [])

example :
    normalizeTree (.obj (.cons "show ip" (.obj .nil) .nil)) =
      .mk [("show", .mk [("ip", .mk [])])] := rfl

example :
    normalizeTree (.obj (.cons "Show IP" (.obj (.cons "isis" .prim .nil)) .nil)) =
      .mk [("show", .mk [("ip", .mk [("isis", .mk [])])])] := rfl

/-! ## The suggestion engine of the `normalizeTree` variant

`onTrigger` decides, from the current line and cursor offset, whether to
open the suggestion popup and what the trigger span/query are;
`getSuggestions` walks the tree along the already-completed tokens and
enumerates, filters and sorts the children of the reached node;
`selectSuggestion` applies an accepted token to the editor. Lines are
modelled as strings, cursor offsets as character counts. -/

/-- The trigger information `{ start, end, query }` returned by `onTrigger`
(the line number and the end offset are the cursor position itself, so only
the start offset and the query are kept). -/
structure TriggerInfo where
  startCh : Nat
  query : String
  deriving DecidableEq

/-- Model of `onTrigger`: take the part of the line before the cursor; if it
is empty after stripping leading whitespace, decline (`null`). Otherwise
match the trailing run of non-whitespace characters `(\S+)$` as the query
(the empty query when the prefix ends in whitespace) and report its start
offset. -/
def onTrigger (line : String) (cursor : Nat) : Option TriggerInfo :=
  let sub := line.data.take cursor
  if ltrim sub = [] then none
  else
    let q := (sub.reverse.takeWhile (fun c => !isWs c)).reverse
    some ⟨sub.length - q.length, String.mk q⟩

/-- The completed-token list `getSuggestions` derives from the line: the text
before the trigger start, trimmed, lowercased and split on whitespace
(`preStr.length > 0 ? preStr.toLowerCase().split(/\s+/) : []`). -/
def pathTokens (line : String) (startCh : Nat) : List String :=
  let preStr := trimChars (line.data.take startCh)
  if preStr = [] then [] else splitWs (lowerStr (String.mk preStr))

/-- The tree walk of `getSuggestions`: follow one child edge per completed
token; a missing edge aborts with the empty list, otherwise the children of
the reached node are filtered by the query prefix (only when the query is
nonempty, as in the source) and sorted. -/
def suggestFrom : CNode → List String → String → List String
  | t, [], q =>
    let suggestions := t.keys
    let suggestions :=
      if q = "" then suggestions
      else suggestions.filter (fun s => strStartsWith s q)
    List.insertionSort strLeP suggestions
  | t, tok :: rest, q =>
    match lookupChild t tok with
    | some c => suggestFrom c rest q
    | none => []

/-- Pure resolution of the completed-token path (used to state when the walk
inside `getSuggestions` dead-ends). -/
def resolvePath : CNode → List String → Option CNode
  | t, [] => some t
  | t, tok :: rest =>
    match lookupChild t tok with
    | some c => resolvePath c rest
    | none => none

/-- Model of `getSuggestions(context)`: lowercase the query, derive the
completed-token list from the line, and run the tree walk. -/
def getSuggestions (data : CNode) (line : String) (startCh : Nat)
    (query : String) : List String :=
  suggestFrom data (pathTokens line startCh) (lowerStr query)

/-- The whole per-keystroke pipeline: a `none` result models "no trigger"
(`onTrigger` returned `null`), distinct from `some []` (triggered with an
empty suggestion list). -/
def suggest (data : CNode) (line : String) (cursor : Nat) :
    Option (List String) :=
  (onTrigger line cursor).map fun info =>
    getSuggestions data line info.startCh info.query

/-- Model of `selectSuggestion`: replace the trigger span `[startCh, endCh)`
of the line by the accepted token followed by one space
(`editor.replaceRange(value + " ", start, end)`) and place the cursor at
`start.ch + value.length + 1`. -/
def selectSuggestion (line value : String) (startCh endCh : Nat) :
    String × Nat :=
  (⟨line.data.take startCh ++ (value ++ " ").data ++ line.data.drop endCh⟩,
    startCh + value.length + 1)

example :
    suggest (normalizeTree (.obj (.cons "show ip" (.obj .nil) .nil)))
      "sH" 2 = some ["show"] := rfl

example :
    suggest (normalizeTree (.obj (.cons "show ip" (.obj .nil) .nil)))
      "show " 5 = some ["ip"] := rfl

example :
    suggest (normalizeTree (.obj (.cons "show ip" (.obj .nil) .nil)))
      "   " 3 = none := rfl

example :
    selectSuggestion "show ip is" "isis" 8 10 = ("show ip isis ", 13) := rfl

/-! ## The flat-dictionary builder `buildTreeFromR04` and its engine

In this variant a tree node is again a plain JavaScript object, but the
description of a complete command is stored under the reserved key `_desc`
of the final node, as a string value sitting next to the child edges. A
node value is therefore either a nested object or a string, which the model
captures with `JVal`. -/

/-- A JavaScript value stored in an R04 tree node: either a child node
(an object, i.e. an association list of fields in insertion order) or a
string (the `_desc` description). -/
inductive JVal where
  | str (s : String)
  | obj (fields : List (String × JVal))

/-- JavaScript truthiness of a node value as tested by
`if (!currentLevel[part])`: objects are truthy, strings are truthy iff
nonempty. -/
def jsTruthy : JVal → Bool
  | .obj _ => true
  | .str s => s ≠ ""

/-- The statement `currentLevel._desc = desc` of `buildTreeFromR04`. On a
string value the JavaScript property write has no observable effect, which
the model renders as the identity. -/
def setDesc (t : JVal) (desc : String) : JVal :=
  match t with
  | .obj fields => .obj (setAssoc fields "_desc" (.str desc))
  | .str s => .str s

/-- The child the walk continues into after `if (!currentLevel[part])
currentLevel[part] = {}`: a truthy existing value, or a fresh empty
object. -/
def childFor (fields : List (String × JVal)) (pl : String) : JVal :=
  match List.lookup pl fields with
  | some v => if jsTruthy v then v else JVal.obj []
  | none => JVal.obj []

/-- One command insertion of `buildTreeFromR04`: walk the parts, lowercasing
each, reusing a truthy existing child or creating a fresh empty object, and
store the description on the node reached by the last part. Property writes
that land on a string value are modelled as no-ops (see `setDesc`). -/
def insertParts : JVal → List String → String → JVal
  | t, [], _ => t
  | .str s, _ :: _, _ => .str s
  | .obj fields, p :: ps, desc =>
    let pl := lowerStr p
    let child := childFor fields pl
    let child' := if ps.isEmpty then setDesc child desc else insertParts child ps desc
    .obj (setAssoc fields pl child')

/-- The token sequence of one dictionary entry:
`cmdName.trim().split(/\s+/)`. -/
def cmdParts (cmd : String) : List String :=
  splitWs (String.mk (trimChars cmd.data))

/-- Insertion of one dictionary entry: the trimmed whitespace split of the
command name gives the parts, then the walk above. -/
def insertCmd (t : JVal) (cmd desc : String) : JVal :=
  insertParts t (cmdParts cmd) desc

/-- The builder `buildTreeFromR04`: fold every `(command, description)` entry
of the flat R04 dictionary into an initially empty root. Only the
`description` field of the detail record is stored in the tree, so entries
are modelled as command/description pairs. -/
def buildTreeFromR04 (entries : List (String × String)) : JVal :=
  entries.foldl (fun t e => insertCmd t e.1 e.2) (.obj [])

/-- Tree traversal as performed by the R04 `getSuggestions`: one step per
token, each lowercased at lookup time, succeeding only on a truthy object
child (`current[lowerToken] && typeof current[lowerToken] === 'object'`).
The path here is expected already lowercased. -/
def resolveJ : JVal → List String → Option JVal
  | t, [] => some t
  | .obj fields, p :: ps =>
    (match List.lookup p fields with
     | some (JVal.obj gs) => resolveJ (.obj gs) ps
     | _ => none)
  | .str _, _ :: _ => none

/-- The description stored at a node, if any. -/
def descOf : JVal → Option String
  | .obj fields =>
    (match List.lookup "_desc" fields with
     | some (.str d) => some d
     | _ => none)
  | .str _ => none

/-- The R04 `onTrigger`: identical to the other variant except that the
emptiness test uses `trim` instead of `trimStart`. -/
def onTriggerR04 (line : String) (cursor : Nat) : Option TriggerInfo :=
  let sub := line.data.take cursor
  if trimChars sub = [] then none
  else
    let q := (sub.reverse.takeWhile (fun c => !isWs c)).reverse
    some ⟨sub.length - q.length, String.mk q⟩

/-- The completed-token list of the R04 `getSuggestions`: the prefix is
trimmed and split, but (unlike the other variant) lowercased per token only
at lookup time. -/
def pathTokensR04 (line : String) (startCh : Nat) : List String :=
  let pre := trimChars (line.data.take startCh)
  if pre = [] then [] else splitWs (String.mk pre)

/-- The walk and enumeration of the R04 `getSuggestions`: follow a truthy
object child per lowercased token (returning `[]` on a dead end), then list
the keys of the reached node except `_desc`, filter by the query prefix and
sort. -/
def suggestFromJ : JVal → List String → String → List String
  | .obj fields, [], q =>
    List.insertionSort strLeP
      ((fields.map Prod.fst).filter
        (fun k => k ≠ "_desc" && strStartsWith k q))
  | .str _, [], _ => []
  | .obj fields, tok :: rest, q =>
    (match List.lookup (lowerStr tok) fields with
     | some (JVal.obj gs) => suggestFromJ (.obj gs) rest q
     | _ => [])
  | .str _, _ :: _, _ => []

/-- Model of the R04 `getSuggestions(context)`. -/
def getSuggestionsR04 (data : JVal) (line : String) (startCh : Nat)
    (query : String) : List String :=
  suggestFromJ data (pathTokensR04 line startCh) (lowerStr query)

/-- The whole R04 per-keystroke pipeline, `none` modelling "no trigger". -/
def suggestR04 (data : JVal) (line : String) (cursor : Nat) :
    Option (List String) :=
  (onTriggerR04 line cursor).map fun info =>
    getSuggestionsR04 data line info.startCh info.query

/-- Model of the R04 `selectSuggestion`: it performs the same
`replaceRange(value + " ", start, end)` but does not reposition the cursor
itself, so only the resulting line is returned. -/
def selectSuggestionR04 (line value : String) (startCh endCh : Nat) : String :=
  ⟨line.data.take startCh ++ (value ++ " ").data ++ line.data.drop endCh⟩

example :
    buildTreeFromR04 [("show ip interface", "D1"), ("show ip isis status", "D2")] =
      .obj [("show", .obj [("ip", .obj
        [("interface", .obj [("_desc", .str "D1")]),
         ("isis", .obj [("status", .obj [("_desc", .str "D2")])])])])] := rfl

example :
    getSuggestionsR04
      (buildTreeFromR04 [("show ip interface", "D1"), ("show ip isis status", "D2")])
      "show ip is" 8 "is" = ["isis"] := rfl

example :
    getSuggestionsR04
      (buildTreeFromR04 [("show ip interface", "D1"), ("show ip isis status", "D2")])
      "show ip " 8 "" = ["interface", "isis"] := rfl

/-! ## The token classifier of the code-block processor

For each non-empty part produced by the delimiter-preserving split, the
processor in `main.ts` runs an if/else chain: whitespace run, IPv4 address,
MAC address (colon or dot grouped), bare number, quoted string, then the
five keyword sets on the lowercased part, then a plain fallback span. The
regular expressions are modelled by the executable predicates below. The
keyword sets live outside the embedded sources, so they are parameters of
the classifier; the classification structure does not depend on their
contents. -/

/-- Test for `/^\s+$/`. -/
def isWsRun (s : String) : Bool := !s.data.isEmpty && s.data.all isWs

/-- Split on a single delimiter character (no run collapsing), as needed to
decide the anchored group regexes below. -/
def splitOnChar (sep : Char) : List Char → List Char → List (List Char)
  | [], acc => [acc.reverse]
  | c :: cs, acc =>
    if c = sep then acc.reverse :: splitOnChar sep cs []
    else splitOnChar sep cs (c :: acc)

/-- A run of one to three ASCII digits. -/
def digits13 (l : List Char) : Bool :=
  decide (1 ≤ l.length) && decide (l.length ≤ 3) && l.all Char.isDigit

/-- Test for `/^\d{1,3}\.\d{1,3}\.\d{1,3}\.\d{1,3}$/`: four dot-separated
runs of one to three digits. -/
def isIpv4 (s : String) : Bool :=
  match splitOnChar '.' s.data [] with
  | [a, b, c, d] => digits13 a && digits13 b && digits13 c && digits13 d
  | _ => false

/-- Case-insensitive hexadecimal digit (the `/i` flag of the MAC regexes). -/
def isHexDigit (c : Char) : Bool :=
  c.isDigit || ('a' ≤ c && c ≤ 'f') || ('A' ≤ c && c ≤ 'F')

/-- A run of exactly `n` hexadecimal digits. -/
def hexRun (n : Nat) (l : List Char) : Bool :=
  decide (l.length = n) && l.all isHexDigit

/-- Test for `/^[0-9a-f]{2}(:[0-9a-f]{2}){5}$/i`: six colon-separated pairs
of hex digits. -/
def isMacColon (s : String) : Bool :=
  match splitOnChar ':' s.data [] with
  | [a, b, c, d, e, f] =>
    hexRun 2 a && hexRun 2 b && hexRun 2 c && hexRun 2 d && hexRun 2 e &&
      hexRun 2 f
  | _ => false

/-- Test for `/^[0-9a-f]{4}\.[0-9a-f]{4}\.[0-9a-f]{4}$/i`: three
dot-separated quadruples of hex digits. -/
def isMacDot (s : String) : Bool :=
  match splitOnChar '.' s.data [] with
  | [a, b, c] => hexRun 4 a && hexRun 4 b && hexRun 4 c
  | _ => false

/-- Test for `/^\d+$/`. -/
def isNum (s : String) : Bool := !s.data.isEmpty && s.data.all Char.isDigit

/-- Test for `part.startsWith('"') && part.endsWith('"')` (true for the
single character `"` as well, exactly as in JavaScript). -/
def isQuoted (s : String) : Bool :=
  (s.data.head? = some '"' : Bool) && (s.data.getLast? = some '"' : Bool)

/-- The classification outcome: which branch of the if/else chain fired.
`fallback` is the plain span of unrecognised text. -/
inductive TokClass where
  | wsRun
  | ip
  | mac
  | num
  | quoted
  | kw1
  | kw2
  | kw3
  | kw4
  | kw5
  | fallback
  deriving DecidableEq

/-- The CSS class attached to each outcome by the processor (whitespace and
fallback produce a span with no class). -/
def cssOf : TokClass → Option String
  | .wsRun => none
  | .ip => some "aosr8-number"
  | .mac => some "aosr8-mac"
  | .num => some "aosr8-number"
  | .quoted => some "aosr8-string"
  | .kw1 => some "aosr8-keyword"
  | .kw2 => some "aosr8-type"
  | .kw3 => some "aosr8-invalid"
  | .kw4 => some "aosr8-atom"
  | .kw5 => some "aosr8-variable"
  | .fallback => none

/-- The if/else chain of the code-block processor, exactly in source order.
The five keyword sets are abstract membership predicates applied to the
lowercased part. -/
def classify (kw1 kw2 kw3 kw4 kw5 : String → Bool) (part : String) :
    TokClass :=
  let lower := lowerStr part
  if isWsRun part then .wsRun
  else if isIpv4 part then .ip
  else if isMacColon part || isMacDot part then .mac
  else if isNum part then .num
  else if isQuoted part then .quoted
  else if kw1 lower then .kw1
  else if kw2 lower then .kw2
  else if kw3 lower then .kw3
  else if kw4 lower then .kw4
  else if kw5 lower then .kw5
  else .fallback

/-- The rule table exactly as the specification words it: whitespace run
first, then the literal patterns (IPv4 address, MAC address, number, quoted
string), then the five keyword sets in priority order; the fallback closes
the list. -/
def specRules (kw1 kw2 kw3 kw4 kw5 : String → Bool) :
    List ((String → Bool) × TokClass) :=
  [(isWsRun, .wsRun),
   (isIpv4, .ip),
   (fun p => isMacColon p || isMacDot p, .mac),
   (isNum, .num),
   (isQuoted, .quoted),
   (fun p => kw1 (lowerStr p), .kw1),
   (fun p => kw2 (lowerStr p), .kw2),
   (fun p => kw3 (lowerStr p), .kw3),
   (fun p => kw4 (lowerStr p), .kw4),
   (fun p => kw5 (lowerStr p), .kw5)]

/-- First-matching-rule evaluation over a rule table. -/
def firstMatch : List ((String → Bool) × TokClass) → String → TokClass
  | [], _ => .fallback
  | (pred, c) :: rest, p => if pred p then c else firstMatch rest p

example : isIpv4 "192.168.1.1" = true := rfl
example : isIpv4 "192.168.1" = false := rfl
example : isMacColon "aa:bb:cc:00:11:22" = true := rfl
example : isMacDot "aabb.cc00.1122" = true := rfl
example : isQuoted "\"x\"" = true := rfl

/-! ## The CodeMirror stream tokenizer

The `token` function of `aosr8Language` (`syntax.ts`) classifies by
consuming a prefix of the remaining line: a whitespace run, then line
comments (`!` or `#` up to the end of the line), then a quoted string,
then the prefix-anchored IPv4, MAC and number patterns, then a maximal
word looked up in the keyword sets, then a single skipped character. It
differs from the code-block processor modelled above: comments are a
category of their own, the quoted-string check precedes the literal
patterns, and the regexes are anchored only at the start of the match, so
they may consume a proper prefix of a word. -/

/-- The categories (highlight tags) the stream tokenizer can assign. -/
inductive StreamCat where
  | nullCat
  | lineComment
  | stringTok
  | numberTok
  | macTok
  | kw1
  | kw2
  | kw3
  | kw4
  | kw5
  deriving DecidableEq

/-- Word characters of the regex class `[\w\d\.-]`. -/
def isWordChar (c : Char) : Bool :=
  c.isAlphanum || c = '_' || c = '.' || c = '-'

/-- Prefix match of `/^".*?"/`: a quote, then the shortest run up to a
closing quote. -/
def matchStringPrefix (l : List Char) : Option Nat :=
  match l with
  | '"' :: rest =>
    (match rest.findIdx? (fun c => c = '"') with
     | some i => some (i + 2)
     | none => none)
  | _ => none

/-- One `\d{1,3}\.` group of the IPv4 regex: the digit run at the current
position must have length one to three (on a longer run every backtracking
choice is followed by a digit, never by the dot, so the group fails) and be
followed by a dot. Returns the input after the dot. -/
def ipSeg (l : List Char) : Option (List Char) :=
  let r := l.takeWhile Char.isDigit
  if 1 ≤ r.length ∧ r.length ≤ 3 then
    match l.drop r.length with
    | '.' :: rest => some rest
    | _ => none
  else none

/-- Prefix match of `/^\d{1,3}\.\d{1,3}\.\d{1,3}\.\d{1,3}/`: three
dot-terminated groups and a final greedy run of at most three digits;
returns the consumed length. -/
def matchIpPrefix (l : List Char) : Option Nat :=
  match ipSeg l with
  | none => none
  | some l1 =>
    match ipSeg l1 with
    | none => none
    | some l2 =>
      match ipSeg l2 with
      | none => none
      | some l3 =>
        let r := l3.takeWhile Char.isDigit
        if 1 ≤ r.length then some (l.length - l3.length + min 3 r.length)
        else none

/-- Consume exactly `n` hexadecimal digits. -/
def hexChomp (n : Nat) (l : List Char) : Option (List Char) :=
  if (l.take n).length = n ∧ (l.take n).all isHexDigit then some (l.drop n)
  else none

/-- The `(:[0-9a-fA-F]{2}){n}` tail of the colon MAC regex. -/
def macColonGroups : Nat → List Char → Option (List Char)
  | 0, l => some l
  | n + 1, l =>
    match l with
    | ':' :: rest =>
      (match hexChomp 2 rest with
       | some rest2 => macColonGroups n rest2
       | none => none)
    | _ => none

/-- Prefix match of `/^[0-9a-fA-F]{2}(:[0-9a-fA-F]{2}){5}/`. -/
def matchMacColonPrefix (l : List Char) : Option Nat :=
  match hexChomp 2 l with
  | some rest =>
    (match macColonGroups 5 rest with
     | some rest2 => some (l.length - rest2.length)
     | none => none)
  | none => none

/-- Prefix match of `/^[0-9a-fA-F]{4}\.[0-9a-fA-F]{4}\.[0-9a-fA-F]{4}/`. -/
def matchMacDotPrefix (l : List Char) : Option Nat :=
  match hexChomp 4 l with
  | some r1 =>
    (match r1 with
     | '.' :: r2 =>
       (match hexChomp 4 r2 with
        | some r3 =>
          (match r3 with
           | '.' :: r4 =>
             (match hexChomp 4 r4 with
              | some r5 => some (l.length - r5.length)
              | none => none)
           | _ => none)
        | none => none)
     | _ => none)
  | none => none

/-- The `token` function of `aosr8Language`: given the remaining line,
returns how many characters it consumes and the category it assigns to
them, following the source's branch order exactly. -/
def tokenStream (kw1 kw2 kw3 kw4 kw5 : String → Bool) (l : List Char) :
    Nat × StreamCat :=
  let ws := l.takeWhile isWs
  if ws.length ≠ 0 then (ws.length, .nullCat)
  else
    match l with
    | '!' :: _ => (l.length, .lineComment)
    | '#' :: _ => (l.length, .lineComment)
    | _ =>
      match matchStringPrefix l with
      | some n => (n, .stringTok)
      | none =>
        match matchIpPrefix l with
        | some n => (n, .numberTok)
        | none =>
          match matchMacColonPrefix l with
          | some n => (n, .macTok)
          | none =>
            match matchMacDotPrefix l with
            | some n => (n, .macTok)
            | none =>
              let digits := l.takeWhile Char.isDigit
              if digits.length ≠ 0 then (digits.length, .numberTok)
              else
                let w := l.takeWhile isWordChar
                if w.length ≠ 0 then
                  let word := lowerStr (String.mk w)
                  (w.length,
                    if kw1 word then .kw1
                    else if kw2 word then .kw2
                    else if kw3 word then .kw3
                    else if kw4 word then .kw4
                    else if kw5 word then .kw5
                    else .nullCat)
                else (1, .nullCat)

/-- The empty keyword set, for concrete evaluations. -/
def noKw : String → Bool := fun _ => false

example : tokenStream noKw noKw noKw noKw noKw "1.2.3.4".data =
    (7, .numberTok) := rfl
example : tokenStream noKw noKw noKw noKw noKw "aa:bb:cc:00:11:22".data =
    (17, .macTok) := rfl
example : tokenStream noKw noKw noKw noKw noKw "\"x\"y".data =
    (3, .stringTok) := rfl

/-! ## A heap model of `normalizeTree` for the frame property

The pure tree model cannot express the claim that construction never
mutates its raw input, so the traversal is replayed over an explicit heap:
objects live at numeric addresses, the raw dictionary occupies the
addresses below the allocation watermark, and the construction allocates
its nodes at and above it. Recursion is bounded by fuel (the original
relies on the acyclicity of JSON data); the frame property holds for every
fuel bound, partial runs included. -/

/-- A JavaScript value stored in an object slot: a reference to another
object, an array of strings (only `_options` arrays are ever read), a
string, or some other primitive. -/
inductive HVal where
  | ref (a : Nat)
  | arrv (items : List String)
  | strv (s : String)
  | primv

/-- The heap: the fields of the object at every address, and the allocation
watermark; addresses at or above `next` are unallocated (empty). -/
structure Heap where
  objs : Nat → List (String × HVal)
  next : Nat

/-- The property write `o[k] = v` at address `a`. -/
def hSet (h : Heap) (a : Nat) (k : String) (v : HVal) : Heap :=
  { h with
    objs := fun a' => if a' = a then setAssoc (h.objs a) k v else h.objs a' }

/-- The statement `if (!temp[part]) temp[part] = {}` followed by the read
`temp[part]`: reuse an existing reference, otherwise allocate a fresh empty
node and store a reference to it. In the trees this construction builds all
slot values are references, so the catch-all branch (a falsy or non-object
value) can only ever fire on the first write to a slot. -/
def ensureChild (h : Heap) (a : Nat) (k : String) : Heap × Nat :=
  match List.lookup k (h.objs a) with
  | some (.ref c) => (h, c)
  | _ => (hSet { h with next := h.next + 1 } a k (.ref h.next), h.next)

/-- The options loop over the heap: one ensure step per option string. -/
def addOptsH (opts : List String) (rootA : Nat) (h : Heap) : Heap :=
  opts.foldl (fun acc o => (ensureChild acc rootA (lowerStr o)).1) h

mutual
/-- The recursive `traverse(currentRaw, currentRoot)` over the heap: the
`for key in currentRaw` loop over a snapshot of the fields, then the
options loop — reading, as the source does, the `_options` of the
top-level `rawA`, not of the current level. -/
def traverseH (fuel : Nat) (rawA curRawA rootA : Nat) (h : Heap) : Heap :=
  match fuel with
  | 0 => h
  | fuel + 1 =>
    let h1 := goKeysH fuel rawA (h.objs curRawA) curRawA rootA h
    match List.lookup "_options" (h1.objs rawA) with
    | some (.arrv opts) => addOptsH opts rootA h1
    | _ => h1
termination_by structural fuel

/-- The key loop of `traverseH`: skip the sentinel, tokenize the key, and
run the insertion walk from the current root. -/
def goKeysH (fuel : Nat) (rawA : Nat) (fields : List (String × HVal))
    (curRawA rootA : Nat) (h : Heap) : Heap :=
  match fuel with
  | 0 => h
  | fuel + 1 =>
    match fields with
    | [] => h
    | (k, _) :: rest =>
      let h' :=
        if k = "_options" then h
        else
          match tokenizeKey k with
          | [] => h
          | parts => insertKeyH fuel rawA curRawA k rootA parts h
      goKeysH fuel rawA rest curRawA rootA h'
termination_by structural fuel

/-- The per-key walk of `traverseH`: create/reuse one node per token; at the
last token read `currentRaw[key]` and recurse into it when it is a
reference (a non-array object). -/
def insertKeyH (fuel : Nat) (rawA curRawA : Nat) (key : String)
    (tempA : Nat) (parts : List String) (h : Heap) : Heap :=
  match fuel with
  | 0 => h
  | fuel + 1 =>
    match parts with
    | [] => h
    | [p] =>
      let h1 := (ensureChild h tempA p).1
      let childA := (ensureChild h tempA p).2
      match List.lookup key (h1.objs curRawA) with
      | some (.ref na) => traverseH fuel rawA na childA h1
      | _ => h1
    | p :: rest =>
      insertKeyH fuel rawA curRawA key (ensureChild h tempA p).2 rest
        (ensureChild h tempA p).1
termination_by structural fuel
end

/-- The heap run of `normalizeTree(raw)`: allocate the fresh root at the
current watermark and traverse; returns the final heap and the root
address. -/
def normalizeTreeH (fuel : Nat) (h : Heap) (rawA : Nat) : Heap × Nat :=
  (traverseH fuel rawA rawA h.next { h with next := h.next + 1 }, h.next)

/-- Addresses at or above `n0` only reference addresses at or above `n0`
(the freshly built tree region is closed). -/
def ClosedAbove (h : Heap) (n0 : Nat) : Prop :=
  ∀ a, n0 ≤ a → ∀ p ∈ h.objs a, ∀ c, p.2 = HVal.ref c → n0 ≤ c

/-- The frame relation every construction step satisfies: the region below
`n0` is untouched, the region above stays closed, and the watermark only
grows. -/
structure FrameOk (n0 : Nat) (h h' : Heap) : Prop where
  low : ∀ b, b < n0 → h'.objs b = h.objs b
  closed : ClosedAbove h' n0
  nextle : h.next ≤ h'.next

theorem frameOk_refl (n0 : Nat) (h : Heap) (hcl : ClosedAbove h n0) :
    FrameOk n0 h h :=
  ⟨fun _ _ => rfl, hcl, Nat.le_refl _⟩

theorem frameOk_trans {n0 : Nat} {h1 h2 h3 : Heap}
    (a : FrameOk n0 h1 h2) (b : FrameOk n0 h2 h3) : FrameOk n0 h1 h3 :=
  ⟨fun x hx => (b.low x hx).trans (a.low x hx), b.closed,
    Nat.le_trans a.nextle b.nextle⟩

theorem ensureChild_spec (n0 : Nat) (h : Heap) (tempA : Nat) (k : String)
    (hcl : ClosedAbove h n0) (hn : n0 ≤ h.next) (ht : n0 ≤ tempA) :
    FrameOk n0 h (ensureChild h tempA k).1 ∧
      n0 ≤ (ensureChild h tempA k).2 := by
  unfold ensureChild
  have fresh :
      FrameOk n0 h
          (hSet { h with next := h.next + 1 } tempA k (.ref h.next)) ∧
        n0 ≤ h.next := by
    refine ⟨⟨?_, ?_, ?_⟩, hn⟩
    · intro b hb
      have hne : b ≠ tempA := fun e => absurd ht (by omega)
      simp [hSet, hne]
    · intro a ha p hp c hc
      by_cases hat : a = tempA
      · subst hat
        simp only [hSet, if_pos rfl] at hp
        rcases mem_setAssoc hp with h' | h'
        · rw [h'] at hc
          simp only at hc
          cases hc
          exact hn
        · exact hcl a ha p h' c hc
      · simp only [hSet, if_neg hat] at hp
        exact hcl a ha p hp c hc
    · exact Nat.le_succ _
  cases hl : List.lookup k (h.objs tempA) with
  | none => exact ⟨fresh.1, fresh.2⟩
  | some v =>
    cases v with
    | ref c =>
      refine ⟨frameOk_refl n0 h hcl, ?_⟩
      exact hcl tempA ht _ (lookup_mem hl) c rfl
    | arrv items => exact ⟨fresh.1, fresh.2⟩
    | strv s => exact ⟨fresh.1, fresh.2⟩
    | primv => exact ⟨fresh.1, fresh.2⟩

theorem addOptsH_spec (n0 : Nat) :
    ∀ (opts : List String) (rootA : Nat) (h : Heap),
      ClosedAbove h n0 → n0 ≤ h.next → n0 ≤ rootA →
      FrameOk n0 h (addOptsH opts rootA h) := by
  intro opts
  induction opts with
  | nil => intro rootA h hcl _ _; exact frameOk_refl n0 h hcl
  | cons o os ih =>
    intro rootA h hcl hn hr
    obtain ⟨hEC, _⟩ := ensureChild_spec n0 h rootA (lowerStr o) hcl hn hr
    simp only [addOptsH, List.foldl_cons]
    exact frameOk_trans hEC
      (ih rootA _ hEC.closed (Nat.le_trans hn hEC.nextle) hr)

theorem heap_frame :
    ∀ (fuel : Nat) (n0 : Nat),
      (∀ (rawA curRawA rootA : Nat) (h : Heap),
          ClosedAbove h n0 → n0 ≤ h.next → n0 ≤ rootA →
          FrameOk n0 h (traverseH fuel rawA curRawA rootA h)) ∧
      (∀ (rawA : Nat) (fields : List (String × HVal)) (curRawA rootA : Nat)
          (h : Heap),
          ClosedAbove h n0 → n0 ≤ h.next → n0 ≤ rootA →
          FrameOk n0 h (goKeysH fuel rawA fields curRawA rootA h)) ∧
      (∀ (rawA curRawA : Nat) (key : String) (tempA : Nat)
          (parts : List String) (h : Heap),
          ClosedAbove h n0 → n0 ≤ h.next → n0 ≤ tempA →
          FrameOk n0 h (insertKeyH fuel rawA curRawA key tempA parts h)) := by
  intro fuel
  induction fuel with
  | zero =>
    intro n0
    refine ⟨?_, ?_, ?_⟩
    · intro rawA curRawA rootA h hcl _ _
      simp only [traverseH]
      exact frameOk_refl n0 h hcl
    · intro rawA fields curRawA rootA h hcl _ _
      simp only [goKeysH]
      exact frameOk_refl n0 h hcl
    · intro rawA curRawA key tempA parts h hcl _ _
      simp only [insertKeyH]
      exact frameOk_refl n0 h hcl
  | succ fuel ih =>
    intro n0
    obtain ⟨ihT, ihG, ihI⟩ := ih n0
    refine ⟨?_, ?_, ?_⟩
    · intro rawA curRawA rootA h hcl hn hr
      have h1spec := ihG rawA (h.objs curRawA) curRawA rootA h hcl hn hr
      simp only [traverseH]
      cases hlk : List.lookup "_options"
          ((goKeysH fuel rawA (h.objs curRawA) curRawA rootA h).objs rawA) with
      | none => exact h1spec
      | some v =>
        cases v with
        | arrv opts =>
          exact frameOk_trans h1spec
            (addOptsH_spec n0 opts rootA _ h1spec.closed
              (Nat.le_trans hn h1spec.nextle) hr)
        | ref a => exact h1spec
        | strv s => exact h1spec
        | primv => exact h1spec
    · intro rawA fields curRawA rootA h hcl hn hr
      cases fields with
      | nil =>
        simp only [goKeysH]
        exact frameOk_refl n0 h hcl
      | cons kv rest =>
        obtain ⟨k, v⟩ := kv
        simp only [goKeysH]
        have hstep :
            FrameOk n0 h
              (if k = "_options" then h
               else
                 match tokenizeKey k with
                 | [] => h
                 | parts => insertKeyH fuel rawA curRawA k rootA parts h) := by
          split
          · exact frameOk_refl n0 h hcl
          · split
            · exact frameOk_refl n0 h hcl
            · exact ihI rawA curRawA k rootA _ h hcl hn hr
        exact frameOk_trans hstep
          (ihG rawA rest curRawA rootA _ hstep.closed
            (Nat.le_trans hn hstep.nextle) hr)
    · intro rawA curRawA key tempA parts h hcl hn ht
      cases parts with
      | nil =>
        simp only [insertKeyH]
        exact frameOk_refl n0 h hcl
      | cons p rest =>
        obtain ⟨hEC, hc⟩ := ensureChild_spec n0 h tempA p hcl hn ht
        cases rest with
        | nil =>
          simp only [insertKeyH]
          cases hlk : List.lookup key
              (((ensureChild h tempA p).1).objs curRawA) with
          | none => exact hEC
          | some v =>
            cases v with
            | ref na =>
              exact frameOk_trans hEC
                (ihT rawA na (ensureChild h tempA p).2 _ hEC.closed
                  (Nat.le_trans hn hEC.nextle) hc)
            | arrv items => exact hEC
            | strv s => exact hEC
            | primv => exact hEC
        | cons p2 rest2 =>
          simp only [insertKeyH]
          exact frameOk_trans hEC
            (ihI rawA curRawA key (ensureChild h tempA p).2 (p2 :: rest2) _
              hEC.closed (Nat.le_trans hn hEC.nextle) hc)

/-- The per-entry walk of `buildTreeFromR04` over the heap: one ensure step
per lowercased token, then the write `currentLevel._desc = desc` on the
node reached by the last token. String-valued slots occur only under
`_desc`, so a command token colliding with that key is the crash corner
already disclosed for the pure model; it is rendered here by the ensure
step's fresh-node branch, and every write still targets a
construction-allocated node, which is all the frame property needs. -/
def insertPartsH (curA : Nat) (parts : List String) (desc : String)
    (h : Heap) : Heap :=
  match parts with
  | [] => h
  | [p] =>
    hSet (ensureChild h curA (lowerStr p)).1
      (ensureChild h curA (lowerStr p)).2 "_desc" (.strv desc)
  | p :: rest =>
    insertPartsH (ensureChild h curA (lowerStr p)).2 rest desc
      (ensureChild h curA (lowerStr p)).1

/-- The heap run of `buildTreeFromR04`: allocate the fresh root
(`this.autocompleteTree = {}`) at the current watermark and insert every
entry. Only the description string of each detail record is ever read, so
entries are command/description pairs, exactly as in the pure model (they
are the `Object.entries` snapshot of the raw dictionary). -/
def buildTreeFromR04H (entries : List (String × String)) (h : Heap) :
    Heap × Nat :=
  (entries.foldl
      (fun acc e => insertPartsH h.next (cmdParts e.1) e.2 acc)
      { h with next := h.next + 1 },
    h.next)

/-- Writing a string value at a construction-owned address preserves the
frame relation. -/
theorem hSet_strv_frame {n0 : Nat} {h : Heap} {a : Nat} (k desc : String)
    (hcl : ClosedAbove h n0) (ha : n0 ≤ a) :
    FrameOk n0 h (hSet h a k (.strv desc)) := by
  refine ⟨?_, ?_, Nat.le_refl _⟩
  · intro b hb
    have hba : b ≠ a := by omega
    simp [hSet, hba]
  · intro x hx p hp c hc
    by_cases hxa : x = a
    · subst hxa
      simp only [hSet, if_pos rfl] at hp
      rcases mem_setAssoc hp with h' | h'
      · rw [h'] at hc
        exact HVal.noConfusion hc
      · exact hcl x hx p h' c hc
    · simp only [hSet, if_neg hxa] at hp
      exact hcl x hx p hp c hc

theorem insertPartsH_frame (n0 : Nat) :
    ∀ (parts : List String) (curA : Nat) (desc : String) (h : Heap),
      ClosedAbove h n0 → n0 ≤ h.next → n0 ≤ curA →
      FrameOk n0 h (insertPartsH curA parts desc h) := by
  intro parts
  induction parts with
  | nil =>
    intro curA desc h hcl _ _
    simp only [insertPartsH]
    exact frameOk_refl n0 h hcl
  | cons p rest ih =>
    intro curA desc h hcl hn hc
    obtain ⟨hEC, hchild⟩ := ensureChild_spec n0 h curA (lowerStr p) hcl hn hc
    cases rest with
    | nil =>
      simp only [insertPartsH]
      exact frameOk_trans hEC (hSet_strv_frame _ desc hEC.closed hchild)
    | cons p2 rest2 =>
      simp only [insertPartsH]
      exact frameOk_trans hEC
        (ih _ desc _ hEC.closed (Nat.le_trans hn hEC.nextle) hchild)

theorem foldl_insertPartsH_frame (n0 rootA : Nat) (hroot : n0 ≤ rootA) :
    ∀ (l : List (String × String)) (h : Heap),
      ClosedAbove h n0 → n0 ≤ h.next →
      FrameOk n0 h
        (l.foldl (fun acc e => insertPartsH rootA (cmdParts e.1) e.2 acc) h) := by
  intro l
  induction l with
  | nil => intro h hcl _; exact frameOk_refl n0 h hcl
  | cons e l ih =>
    intro h hcl hn
    rw [List.foldl_cons]
    have hstep := insertPartsH_frame n0 (cmdParts e.1) rootA e.2 h hcl hn hroot
    exact frameOk_trans hstep
      (ih _ hstep.closed (Nat.le_trans hn hstep.nextle))

/-- C10: tree construction never mutates its raw input, for both builders.
On a heap whose unallocated addresses are empty, every address allocated
before the run — in particular every object of the raw dictionary structure,
at every depth — holds exactly the same fields after `normalizeTree`
finishes (for every fuel bound, so for every terminating run), and likewise
after `buildTreeFromR04` finishes: all writes during construction go only to
the freshly allocated tree nodes. -/
theorem c10_construction_never_mutates_raw :
    (∀ (fuel : Nat) (h : Heap) (rawA : Nat),
        (∀ a, h.next ≤ a → h.objs a = []) →
        ∀ b, b < h.next →
          ((normalizeTreeH fuel h rawA).1).objs b = h.objs b) ∧
    (∀ (entries : List (String × String)) (h : Heap),
        (∀ a, h.next ≤ a → h.objs a = []) →
        ∀ b, b < h.next →
          ((buildTreeFromR04H entries h).1).objs b = h.objs b) := by
  constructor
  · intro fuel h rawA hfresh b hb
    have hcl : ClosedAbove { h with next := h.next + 1 } h.next := by
      intro a ha p hp c _
      rw [hfresh a ha] at hp
      simp at hp
    have hframe :=
      ((heap_frame fuel h.next).1) rawA rawA h.next
        { h with next := h.next + 1 } hcl (Nat.le_succ _) (Nat.le_refl _)
    exact hframe.low b hb
  · intro entries h hfresh b hb
    have hcl : ClosedAbove { h with next := h.next + 1 } h.next := by
      intro a ha p hp c _
      rw [hfresh a ha] at hp
      simp at hp
    have hframe :=
      foldl_insertPartsH_frame h.next h.next (Nat.le_refl _) entries
        { h with next := h.next + 1 } hcl (Nat.le_succ _)
    exact hframe.low b hb

/-- Witness for C10. First half: a two-address heap holding the raw
dictionary `{"show ip": {}}` at address 0 (with the nested object at
address 1); the `normalizeTree` run leaves addresses 0 and 1 untouched, and
the built tree occupies the fresh addresses (root at 2 with edge "show" to
3, which has edge "ip" to 4). Second half: a one-address heap holding the
R04 dictionary `{"show ip": "D1"}` at address 0; the `buildTreeFromR04` run
leaves address 0 untouched, and the built tree occupies the fresh addresses
(root at 1 with edge "show" to 2, edge "ip" to 3, and the description at
the leaf). -/
theorem c10_construction_never_mutates_raw_witness :
    (∀ a,
        (Heap.mk
            (fun a' =>
              if a' = 0 then [("show ip", HVal.ref 1)] else []) 2).next ≤ a →
        (Heap.mk
            (fun a' =>
              if a' = 0 then [("show ip", HVal.ref 1)] else []) 2).objs a =
          []) ∧
    (∀ b,
        b <
          (Heap.mk
              (fun a' =>
                if a' = 0 then [("show ip", HVal.ref 1)] else []) 2).next →
        ((normalizeTreeH 10
              (Heap.mk
                (fun a' =>
                  if a' = 0 then [("show ip", HVal.ref 1)] else []) 2)
              0).1).objs b =
          (Heap.mk
              (fun a' =>
                if a' = 0 then [("show ip", HVal.ref 1)] else []) 2).objs b) ∧
    ((normalizeTreeH 10
          (Heap.mk
            (fun a' =>
              if a' = 0 then [("show ip", HVal.ref 1)] else []) 2)
          0).1).objs 2 = [("show", HVal.ref 3)] ∧
    ((normalizeTreeH 10
          (Heap.mk
            (fun a' =>
              if a' = 0 then [("show ip", HVal.ref 1)] else []) 2)
          0).1).objs 3 = [("ip", HVal.ref 4)] ∧
    (∀ a,
        (Heap.mk
            (fun a' =>
              if a' = 0 then [("show ip", HVal.strv "D1")] else []) 1).next ≤
          a →
        (Heap.mk
            (fun a' =>
              if a' = 0 then [("show ip", HVal.strv "D1")] else []) 1).objs
          a = []) ∧
    (∀ b,
        b <
          (Heap.mk
              (fun a' =>
                if a' = 0 then [("show ip", HVal.strv "D1")] else []) 1).next →
        ((buildTreeFromR04H [("show ip", "D1")]
              (Heap.mk
                (fun a' =>
                  if a' = 0 then [("show ip", HVal.strv "D1")] else [])
                1)).1).objs b =
          (Heap.mk
              (fun a' =>
                if a' = 0 then [("show ip", HVal.strv "D1")] else []) 1).objs
            b) ∧
    ((buildTreeFromR04H [("show ip", "D1")]
          (Heap.mk
            (fun a' =>
              if a' = 0 then [("show ip", HVal.strv "D1")] else [])
            1)).1).objs 1 = [("show", HVal.ref 2)] ∧
    ((buildTreeFromR04H [("show ip", "D1")]
          (Heap.mk
            (fun a' =>
              if a' = 0 then [("show ip", HVal.strv "D1")] else [])
            1)).1).objs 3 = [("_desc", HVal.strv "D1")] :=
  have hfresh :
      ∀ a,
        (Heap.mk
            (fun a' =>
              if a' = 0 then [("show ip", HVal.ref 1)] else []) 2).next ≤ a →
        (Heap.mk
            (fun a' =>
              if a' = 0 then [("show ip", HVal.ref 1)] else []) 2).objs a =
          [] := by
    intro a ha
    have ha2 : 2 ≤ a := ha
    have h0 : a ≠ 0 := by omega
    simp [h0]
  have hfreshR :
      ∀ a,
        (Heap.mk
            (fun a' =>
              if a' = 0 then [("show ip", HVal.strv "D1")] else []) 1).next ≤
          a →
        (Heap.mk
            (fun a' =>
              if a' = 0 then [("show ip", HVal.strv "D1")] else []) 1).objs
          a = [] := by
    intro a ha
    have ha1 : 1 ≤ a := ha
    have h0 : a ≠ 0 := by omega
    simp [h0]
  ⟨hfresh,
    c10_construction_never_mutates_raw.1 10
      (Heap.mk (fun a' => if a' = 0 then [("show ip", HVal.ref 1)] else []) 2)
      0 hfresh,
    rfl, rfl,
    hfreshR,
    c10_construction_never_mutates_raw.2 [("show ip", "D1")]
      (Heap.mk
        (fun a' => if a' = 0 then [("show ip", HVal.strv "D1")] else []) 1)
      hfreshR,
    rfl, rfl⟩

/-! ## Metadata reachability in R04 trees

For claim C1 the relevant invariant of `buildTreeFromR04` trees is that
string-valued fields occur only under the reserved key `_desc`; under that
invariant, inserting a command makes its lowercased token path resolve to a
node carrying a description, and later insertions never destroy this (as
long as no command token collides with the reserved `_desc` key, which the
walk would then confuse with the metadata slot). -/

/-- String-valued fields occur only under the key `_desc`, at every
depth. -/
inductive DescOnly : JVal → Prop where
  | str : ∀ s, DescOnly (.str s)
  | obj : ∀ fs, (∀ p ∈ fs, ∀ s, p.2 = JVal.str s → p.1 = "_desc") →
      (∀ p ∈ fs, DescOnly p.2) → DescOnly (.obj fs)

theorem descOnly_empty : DescOnly (.obj []) := .obj [] (by simp) (by simp)

theorem DescOnly.lookupInv {fs : List (String × JVal)} {k : String}
    {v : JVal} (h : DescOnly (.obj fs)) (hl : List.lookup k fs = some v) :
    DescOnly v := by
  cases h with
  | obj fs h1 h2 => exact h2 _ (lookup_mem hl)

theorem DescOnly.lookup_str {fs : List (String × JVal)} {k s : String}
    (h : DescOnly (.obj fs)) (hl : List.lookup k fs = some (.str s)) :
    k = "_desc" := by
  cases h with
  | obj fs h1 h2 => exact h1 _ (lookup_mem hl) s rfl

theorem childFor_descOnly {fs : List (String × JVal)} (pl : String)
    (h : DescOnly (.obj fs)) : DescOnly (childFor fs pl) := by
  unfold childFor
  cases hl : List.lookup pl fs with
  | none => exact descOnly_empty
  | some v =>
    by_cases ht : jsTruthy v = true
    · simpa [ht] using h.lookupInv hl
    · simp only [ht]
      simpa using descOnly_empty

theorem childFor_obj {fs : List (String × JVal)} {pl : String}
    (h : DescOnly (.obj fs)) (hpl : pl ≠ "_desc") :
    ∃ gs, childFor fs pl = .obj gs := by
  unfold childFor
  cases hl : List.lookup pl fs with
  | none => exact ⟨[], rfl⟩
  | some v =>
    cases v with
    | obj gs => exact ⟨gs, by simp [jsTruthy]⟩
    | str s => exact absurd (h.lookup_str hl) hpl

theorem childFor_of_lookup_obj {fs : List (String × JVal)} {pl : String}
    {gs : List (String × JVal)}
    (hl : List.lookup pl fs = some (.obj gs)) : childFor fs pl = .obj gs := by
  unfold childFor
  simp [hl, jsTruthy]

theorem setDesc_descOnly {t : JVal} (h : DescOnly t) (desc : String) :
    DescOnly (setDesc t desc) := by
  cases h with
  | str s => exact .str s
  | obj fs h1 h2 =>
    refine .obj _ ?_ ?_
    · intro p hp s hs
      rcases mem_setAssoc hp with h | h
      · rw [h]
      · exact h1 _ h s hs
    · intro p hp
      rcases mem_setAssoc hp with h | h
      · rw [h]; exact .str desc
      · exact h2 _ h

theorem setDesc_eq_str {t : JVal} {d s : String}
    (h : setDesc t d = .str s) : t = .str s := by
  cases t with
  | str s' => simpa [setDesc] using h
  | obj fs => simp [setDesc] at h

theorem insertParts_eq_str {ps : List String} {t : JVal} {d s : String}
    (h : insertParts t ps d = .str s) : t = .str s := by
  cases ps with
  | nil => simpa [insertParts] using h
  | cons p ps =>
    cases t with
    | str s' => simpa [insertParts] using h
    | obj fs => simp [insertParts] at h

theorem childFor_eq_str {fs : List (String × JVal)} {pl s : String}
    (h : DescOnly (.obj fs)) (he : childFor fs pl = .str s) :
    pl = "_desc" := by
  unfold childFor at he
  cases hl : List.lookup pl fs with
  | none =>
    rw [hl] at he
    exact JVal.noConfusion (show JVal.obj [] = JVal.str s from he)
  | some v =>
    rw [hl] at he
    have he2 : (if jsTruthy v = true then v else JVal.obj []) = JVal.str s := he
    by_cases ht : jsTruthy v = true
    · rw [if_pos ht] at he2
      exact h.lookup_str (he2 ▸ hl)
    · rw [if_neg ht] at he2
      exact JVal.noConfusion he2

theorem insertParts_descOnly :
    ∀ (parts : List String) (t : JVal) (desc : String),
      DescOnly t → DescOnly (insertParts t parts desc) := by
  intro parts
  induction parts with
  | nil => intro t desc h; simpa [insertParts] using h
  | cons p ps ih =>
    intro t desc h
    cases t with
    | str s => exact .str s
    | obj fs =>
      simp only [insertParts]
      have hchild : DescOnly (childFor fs (lowerStr p)) :=
        childFor_descOnly (lowerStr p) h
      have hchild' :
          DescOnly (if ps.isEmpty then setDesc (childFor fs (lowerStr p)) desc
            else insertParts (childFor fs (lowerStr p)) ps desc) := by
        split
        · exact setDesc_descOnly hchild desc
        · exact ih _ desc hchild
      refine .obj _ ?_ ?_
      · intro q hq s hs
        rcases mem_setAssoc hq with h' | h'
        · have hq1 : q.1 = lowerStr p := by rw [h']
          have hq2 : q.2 = (if ps.isEmpty then
              setDesc (childFor fs (lowerStr p)) desc
            else insertParts (childFor fs (lowerStr p)) ps desc) := by rw [h']
          rw [hq1]
          rw [hq2] at hs
          have hstr : childFor fs (lowerStr p) = .str s := by
            by_cases hps : ps.isEmpty
            · rw [if_pos hps] at hs
              exact setDesc_eq_str hs
            · rw [if_neg hps] at hs
              exact insertParts_eq_str hs
          exact childFor_eq_str h hstr
        · cases h with
          | obj _ h1 _ => exact h1 _ h' s hs
      · intro q hq
        rcases mem_setAssoc hq with h' | h'
        · have : q.2 = (if ps.isEmpty then
              setDesc (childFor fs (lowerStr p)) desc
            else insertParts (childFor fs (lowerStr p)) ps desc) := by rw [h']
          rw [this]
          exact hchild'
        · cases h with
          | obj _ _ h2 => exact h2 _ h'

/-- The insertion walk always leaves an object at an object. -/
theorem insertParts_obj (fs : List (String × JVal)) (ps : List String)
    (d : String) : ∃ gs, insertParts (.obj fs) ps d = .obj gs := by
  cases ps with
  | nil => exact ⟨fs, rfl⟩
  | cons p ps => exact ⟨_, rfl⟩

/-- Traversing the lowercased token path reaches a node carrying a
description. -/
def hasDescAt (t : JVal) (path : List String) : Prop :=
  ∃ n, resolveJ t path = some n ∧ ∃ d, descOf n = some d

theorem hasDescAt_nil {t : JVal} :
    hasDescAt t [] ↔ ∃ d, descOf t = some d := by
  unfold hasDescAt
  simp [resolveJ]

theorem hasDescAt_cons {fs : List (String × JVal)} {q : String}
    {qs : List String} :
    hasDescAt (.obj fs) (q :: qs) ↔
      ∃ gs, List.lookup q fs = some (.obj gs) ∧ hasDescAt (.obj gs) qs := by
  unfold hasDescAt
  constructor
  · rintro ⟨n, hres, d, hd⟩
    simp only [resolveJ] at hres
    cases hl : List.lookup q fs with
    | none => rw [hl] at hres; cases hres
    | some v =>
      cases v with
      | str s => rw [hl] at hres; cases hres
      | obj gs =>
        rw [hl] at hres
        exact ⟨gs, rfl, n, hres, d, hd⟩
  · rintro ⟨gs, hl, n, hres, d, hd⟩
    exact ⟨n, by simp [resolveJ, hl, hres], d, hd⟩

theorem setDesc_hasDescAt (gs : List (String × JVal)) (desc : String) :
    ∀ (qs : List String), (∀ q ∈ qs, q ≠ "_desc") →
      hasDescAt (.obj gs) qs → hasDescAt (setDesc (.obj gs) desc) qs := by
  intro qs hq h
  cases qs with
  | nil =>
    rw [hasDescAt_nil]
    refine ⟨desc, ?_⟩
    simp [setDesc, descOf, lookup_setAssoc_self]
  | cons q qs =>
    rw [hasDescAt_cons] at h
    obtain ⟨hs, hl, hrest⟩ := h
    show hasDescAt (.obj (setAssoc gs "_desc" (.str desc))) (q :: qs)
    rw [hasDescAt_cons]
    refine ⟨hs, ?_, hrest⟩
    rw [lookup_setAssoc_ne gs (.str desc) (hq q (by simp))]
    exact hl

/-- Later insertions never destroy a reachable description, provided no
inserted token and no path component is the reserved key `_desc`. -/
theorem insertParts_preserves_hasDesc :
    ∀ (parts : List String) (t : JVal) (desc : String) (path : List String),
      DescOnly t → (∀ p ∈ parts, lowerStr p ≠ "_desc") →
      (∀ q ∈ path, q ≠ "_desc") →
      hasDescAt t path → hasDescAt (insertParts t parts desc) path := by
  intro parts
  induction parts with
  | nil => intro t desc path _ _ _ h; simpa [insertParts] using h
  | cons p ps ih =>
    intro t desc path hD hparts hpath h
    cases t with
    | str s => simpa [insertParts] using h
    | obj fs =>
      have hpl : lowerStr p ≠ "_desc" := hparts p (by simp)
      simp only [insertParts]
      cases path with
      | nil =>
        rw [hasDescAt_nil] at h ⊢
        obtain ⟨d, hd⟩ := h
        refine ⟨d, ?_⟩
        simp only [descOf] at hd ⊢
        rw [lookup_setAssoc_ne fs _ (fun e => hpl e.symm)]
        exact hd
      | cons q qs =>
        rw [hasDescAt_cons] at h
        obtain ⟨gs, hl, hrest⟩ := h
        rw [hasDescAt_cons]
        by_cases hq : q = lowerStr p
        · subst hq
          have hcf : childFor fs (lowerStr p) = .obj gs :=
            childFor_of_lookup_obj hl
          have hqs : ∀ x ∈ qs, x ≠ "_desc" :=
            fun x hx => hpath x (by simp [hx])
          by_cases hps : ps.isEmpty
          · refine ⟨setAssoc gs "_desc" (.str desc), ?_, ?_⟩
            · rw [if_pos hps, hcf, lookup_setAssoc_self]
              rfl
            · have := setDesc_hasDescAt gs desc qs hqs hrest
              simpa [setDesc] using this
          · obtain ⟨hs, hshape⟩ := insertParts_obj gs ps desc
            refine ⟨hs, ?_, ?_⟩
            · rw [if_neg hps, hcf, hshape, lookup_setAssoc_self]
            · rw [← hshape]
              refine ih _ desc qs ?_ ?_ hqs hrest
              · have := childFor_descOnly (lowerStr p) hD
                rwa [hcf] at this
              · exact fun x hx => hparts x (by simp [hx])
        · refine ⟨gs, ?_, hrest⟩
          rw [lookup_setAssoc_ne fs _ hq]
          exact hl

/-- Inserting a command makes its lowercased token path carry the
description. -/
theorem insertParts_hasDesc :
    ∀ (parts : List String) (fs : List (String × JVal)) (desc : String),
      parts ≠ [] → (∀ p ∈ parts, lowerStr p ≠ "_desc") →
      DescOnly (.obj fs) →
      hasDescAt (insertParts (.obj fs) parts desc) (parts.map lowerStr) := by
  intro parts
  induction parts with
  | nil => intro fs desc h; exact absurd rfl h
  | cons p ps ih =>
    intro fs desc _ hclean hD
    obtain ⟨gs, hgs⟩ := childFor_obj hD (hclean p (by simp))
    simp only [insertParts, List.map_cons]
    rw [hasDescAt_cons]
    cases ps with
    | nil =>
      refine ⟨setAssoc gs "_desc" (.str desc), ?_, ?_⟩
      · rw [hgs]
        show List.lookup (lowerStr p)
            (setAssoc fs (lowerStr p) (setDesc (.obj gs) desc)) = _
        rw [lookup_setAssoc_self]
        rfl
      · rw [List.map_nil, hasDescAt_nil]
        exact ⟨desc, by simp [descOf, lookup_setAssoc_self]⟩
    | cons p2 ps2 =>
      obtain ⟨hs, hshape⟩ := insertParts_obj gs (p2 :: ps2) desc
      refine ⟨hs, ?_, ?_⟩
      · rw [hgs]
        show List.lookup (lowerStr p)
            (setAssoc fs (lowerStr p)
              (insertParts (.obj gs) (p2 :: ps2) desc)) = _
        rw [hshape, lookup_setAssoc_self]
      · rw [← hshape]
        refine ih gs desc (by simp) ?_ ?_
        · exact fun x hx => hclean x (by simp [hx])
        · have := childFor_descOnly (lowerStr p) hD
          rwa [hgs] at this

/-- The whitespace split never returns the empty list of pieces. -/
theorem splitWsGo_ne_nil :
    ∀ (l acc : List Char) (b : Bool), splitWsGo l acc b ≠ [] := by
  intro l
  induction l with
  | nil => intro acc b; simp [splitWsGo]
  | cons c cs ih =>
    intro acc b
    by_cases hw : isWs c
    · cases b with
      | true => simpa [splitWsGo, hw] using ih acc true
      | false => simp [splitWsGo, hw]
    · simpa [splitWsGo, hw] using ih (c :: acc) false

theorem cmdParts_ne_nil (cmd : String) : cmdParts cmd ≠ [] :=
  splitWsGo_ne_nil _ [] false

theorem foldl_insertCmd_descOnly :
    ∀ (l : List (String × String)) (t : JVal), DescOnly t →
      DescOnly (l.foldl (fun t e => insertCmd t e.1 e.2) t) := by
  intro l
  induction l with
  | nil => intro t h; exact h
  | cons e l ih =>
    intro t h
    rw [List.foldl_cons]
    exact ih _ (insertParts_descOnly _ _ _ h)

theorem foldl_insertCmd_obj :
    ∀ (l : List (String × String)) (fs : List (String × JVal)),
      ∃ gs, l.foldl (fun t e => insertCmd t e.1 e.2) (.obj fs) = .obj gs := by
  intro l
  induction l with
  | nil => intro fs; exact ⟨fs, rfl⟩
  | cons e l ih =>
    intro fs
    rw [List.foldl_cons]
    obtain ⟨gs, hgs⟩ := insertParts_obj fs (cmdParts e.1) e.2
    rw [show insertCmd (JVal.obj fs) e.1 e.2 =
      insertParts (.obj fs) (cmdParts e.1) e.2 from rfl, hgs]
    exact ih gs

theorem foldl_insertCmd_preserves_hasDesc :
    ∀ (l : List (String × String)) (t : JVal) (path : List String),
      DescOnly t →
      (∀ e ∈ l, ∀ p ∈ cmdParts e.1, lowerStr p ≠ "_desc") →
      (∀ q ∈ path, q ≠ "_desc") →
      hasDescAt t path →
      hasDescAt (l.foldl (fun t e => insertCmd t e.1 e.2) t) path := by
  intro l
  induction l with
  | nil => intro t path _ _ _ h; exact h
  | cons e l ih =>
    intro t path hD hclean hpath h
    rw [List.foldl_cons]
    refine ih _ path (insertParts_descOnly _ _ _ hD)
      (fun e' he' => hclean e' (by simp [he'])) hpath ?_
    exact insertParts_preserves_hasDesc _ _ _ _ hD
      (hclean e (by simp)) hpath h

/-! ## Helper lemmas about trimming -/

theorem dropWhile_eq_nil_of_all {p : Char → Bool} :
    ∀ {l : List Char}, (∀ c ∈ l.dropWhile p, p c) → l.dropWhile p = [] := by
  intro l
  induction l with
  | nil => intro _; rfl
  | cons c cs ih =>
    intro h
    by_cases hp : p c
    · simpa [List.dropWhile, hp] using ih (by simpa [List.dropWhile, hp] using h)
    · have := h c (by simp [List.dropWhile, hp])
      exact absurd this hp

theorem trimChars_eq_nil_iff {l : List Char} :
    trimChars l = [] ↔ ltrim l = [] := by
  unfold trimChars ltrim
  constructor
  · intro h
    have h1 : (l.dropWhile isWs).reverse.dropWhile isWs = [] := by
      simpa [List.reverse_eq_nil_iff] using h
    have h2 : ∀ c ∈ (l.dropWhile isWs).reverse, isWs c := by
      rw [List.dropWhile_eq_nil_iff] at h1
      exact h1
    have h3 : ∀ c ∈ l.dropWhile isWs, isWs c := by
      intro c hc
      exact h2 c (by simpa using hc)
    exact dropWhile_eq_nil_of_all h3
  · intro h
    simp [h]

/-! ## Key uniqueness of constructed trees

JavaScript objects cannot hold the same key twice, so every node of a tree
built by `normalizeTree` has pairwise distinct edge labels. The model keeps
children as association lists, so this is an invariant established by the
construction. -/

/-- Every node of the tree (at every depth) has pairwise distinct keys. -/
inductive NodupTree : CNode → Prop where
  | mk : ∀ cs, (cs.map Prod.fst).Nodup → (∀ p ∈ cs, NodupTree p.2) →
      NodupTree (.mk cs)

theorem NodupTree.keys_nodup {t : CNode} (h : NodupTree t) : t.keys.Nodup := by
  cases h with
  | mk cs h1 h2 => exact h1

theorem nodupChild {t : CNode} {k : String} {c : CNode}
    (h : NodupTree t) (hl : lookupChild t k = some c) : NodupTree c := by
  cases h with
  | mk cs h1 h2 => exact h2 _ (lookup_mem hl)

theorem nodupTree_empty : NodupTree (.mk []) := .mk [] (by simp) (by simp)

theorem nodupSet {t c : CNode} (k : String) (ht : NodupTree t)
    (hc : NodupTree c) : NodupTree (setChild t k c) := by
  cases ht with
  | mk cs h1 h2 =>
    refine .mk _ ?_ ?_
    · rw [keys_setAssoc]
      simp only [CNode.children]
      split
      · exact h1
      · next hmem =>
        rw [List.nodup_append]
        refine ⟨h1, List.nodup_singleton k, ?_⟩
        intro a ha hak
        simp only [List.mem_singleton] at hak
        subst hak
        exact hmem ha
    · intro p hp
      rcases mem_setAssoc hp with h | h
      · rw [h]; exact hc
      · exact h2 _ h

theorem nodupGetPath {t : CNode} (ps : List String)
    (ht : NodupTree t) : NodupTree (getPath t ps) := by
  induction ps generalizing t with
  | nil => exact ht
  | cons p ps ih =>
    simp only [getPath]
    cases hl : lookupChild t p with
    | none => exact ih nodupTree_empty
    | some c => exact ih (nodupChild ht hl)

theorem nodupSetPath {t c : CNode} (ps : List String)
    (ht : NodupTree t) (hc : NodupTree c) : NodupTree (setPath t ps c) := by
  induction ps generalizing t with
  | nil => exact hc
  | cons p ps ih =>
    simp only [setPath]
    refine nodupSet p ht ?_
    cases hl : lookupChild t p with
    | none => exact ih nodupTree_empty
    | some c' => exact ih (nodupChild ht hl)

theorem nodupAddOpts (opts : List String) {t : CNode}
    (ht : NodupTree t) : NodupTree (addOpts opts t) := by
  induction opts generalizing t with
  | nil => exact ht
  | cons o os ih =>
    simp only [addOpts, List.foldl_cons]
    show NodupTree (addOpts os _)
    cases hl : lookupChild t (lowerStr o) with
    | none => simpa [hl] using ih (nodupSet _ ht nodupTree_empty)
    | some c => simpa [hl] using ih ht

mutual
theorem traverse_nodup (topOpts : List String) :
    ∀ (r : Raw) (t : CNode), NodupTree t → NodupTree (traverse topOpts r t)
  | .obj fs, t, h => by
    simpa only [traverse] using
      nodupAddOpts topOpts (goFields_nodup topOpts fs t h)
  | .nul, t, h => by simpa only [traverse] using nodupAddOpts topOpts h
  | .arr _, t, h => by simpa only [traverse] using h
  | .prim, t, h => by simpa only [traverse] using h

theorem goFields_nodup (topOpts : List String) :
    ∀ (fs : RawFields) (t : CNode), NodupTree t → NodupTree (goFields topOpts fs t)
  | .nil, t, h => by simpa only [goFields] using h
  | .cons k v rest, t, h => by
    simp only [goFields]
    apply goFields_nodup topOpts rest
    by_cases hk : k = "_options"
    · simpa [hk] using h
    · cases htok : tokenizeKey k with
      | nil => simpa [hk, htok] using h
      | cons p ps =>
        simp only [if_neg hk, htok]
        refine nodupSetPath _ h ?_
        by_cases hrec : isRecObj v
        · simpa [hrec] using
            traverse_nodup topOpts v _ (nodupGetPath (p :: ps) h)
        · simpa [hrec] using nodupGetPath (p :: ps) h
end

/-- The tree built by `normalizeTree` has pairwise distinct keys at every
node. -/
theorem normalizeTree_nodup (raw : Raw) : NodupTree (normalizeTree raw) :=
  traverse_nodup (topOptions raw) raw _ nodupTree_empty

theorem resolvePath_nodup {t n : CNode} {toks : List String}
    (ht : NodupTree t) (h : resolvePath t toks = some n) : NodupTree n := by
  induction toks generalizing t with
  | nil => cases h; exact ht
  | cons tok toks ih =>
    simp only [resolvePath] at h
    cases hl : lookupChild t tok with
    | none => simp [hl] at h
    | some c =>
      simp only [hl] at h
      exact ih (nodupChild ht hl) h

/-- Sortedness and duplicate freedom of the result of a suggestion walk on a
tree whose nodes have distinct keys. -/
theorem suggestFrom_sorted {t : CNode} (toks : List String) (q : String)
    (ht : NodupTree t) :
    List.Pairwise (fun a b => strLeP a b ∧ a ≠ b) (suggestFrom t toks q) := by
  induction toks generalizing t with
  | nil =>
    simp only [suggestFrom]
    set l :=
      if q = "" then t.keys
      else t.keys.filter (fun s => strStartsWith s q) with hl
    have hnodup : l.Nodup := by
      rw [hl]
      split
      · exact ht.keys_nodup
      · exact ht.keys_nodup.filter _
    have hsorted : List.Pairwise strLeP (List.insertionSort strLeP l) :=
      List.sorted_insertionSort strLeP l
    have hnodup' : (List.insertionSort strLeP l).Nodup :=
      ((List.perm_insertionSort strLeP l).nodup_iff).mpr hnodup
    exact hsorted.and hnodup'
  | cons tok toks ih =>
    simp only [suggestFrom]
    cases hl : lookupChild t tok with
    | none => simp
    | some c => exact ih (nodupChild ht hl)

/-! ## Key uniqueness of R04 trees

The same JavaScript-object invariant holds for the trees built by
`buildTreeFromR04`: every object node has pairwise distinct keys. -/

/-- Every object node of an R04 tree value has pairwise distinct keys. -/
inductive NodupJ : JVal → Prop where
  | str : ∀ s, NodupJ (.str s)
  | obj : ∀ fs, (fs.map Prod.fst).Nodup → (∀ p ∈ fs, NodupJ p.2) →
      NodupJ (.obj fs)

theorem nodupJ_empty : NodupJ (.obj []) := .obj [] (by simp) (by simp)

theorem nodupJ_lookup {fs : List (String × JVal)} {k : String} {v : JVal}
    (h : NodupJ (.obj fs)) (hl : List.lookup k fs = some v) : NodupJ v := by
  cases h with
  | obj fs h1 h2 => exact h2 _ (lookup_mem hl)

theorem nodupJ_set {fs : List (String × JVal)} {k : String} {v : JVal}
    (h : NodupJ (.obj fs)) (hv : NodupJ v) :
    NodupJ (.obj (setAssoc fs k v)) := by
  cases h with
  | obj fs h1 h2 =>
    refine .obj _ ?_ ?_
    · rw [keys_setAssoc]
      split
      · exact h1
      · next hmem =>
        rw [List.nodup_append]
        refine ⟨h1, List.nodup_singleton k, ?_⟩
        intro a ha hak
        simp only [List.mem_singleton] at hak
        subst hak
        exact hmem ha
    · intro p hp
      rcases mem_setAssoc hp with h' | h'
      · rw [h']; exact hv
      · exact h2 _ h'

theorem nodupJ_childFor {fs : List (String × JVal)} (pl : String)
    (h : NodupJ (.obj fs)) : NodupJ (childFor fs pl) := by
  unfold childFor
  cases hl : List.lookup pl fs with
  | none => exact nodupJ_empty
  | some v =>
    by_cases ht : jsTruthy v = true
    · simpa [ht] using nodupJ_lookup h hl
    · simp only [ht]
      simpa using nodupJ_empty

theorem nodupJ_setDesc {t : JVal} (h : NodupJ t) (desc : String) :
    NodupJ (setDesc t desc) := by
  cases h with
  | str s => exact .str s
  | obj fs h1 h2 => exact nodupJ_set (.obj fs h1 h2) (.str desc)

theorem nodupJ_insertParts :
    ∀ (parts : List String) (t : JVal) (desc : String),
      NodupJ t → NodupJ (insertParts t parts desc) := by
  intro parts
  induction parts with
  | nil => intro t desc h; simpa [insertParts] using h
  | cons p ps ih =>
    intro t desc h
    cases t with
    | str s => exact .str s
    | obj fs =>
      simp only [insertParts]
      have hchild : NodupJ (childFor fs (lowerStr p)) :=
        nodupJ_childFor (lowerStr p) h
      refine nodupJ_set h ?_
      split
      · exact nodupJ_setDesc hchild desc
      · exact ih _ desc hchild

theorem nodupJ_buildTree (entries : List (String × String)) :
    NodupJ (buildTreeFromR04 entries) := by
  unfold buildTreeFromR04
  have hgen : ∀ (l : List (String × String)) (t : JVal), NodupJ t →
      NodupJ (l.foldl (fun t e => insertCmd t e.1 e.2) t) := by
    intro l
    induction l with
    | nil => intro t h; exact h
    | cons e l ih =>
      intro t h
      rw [List.foldl_cons]
      exact ih _ (nodupJ_insertParts _ _ _ h)
  exact hgen entries _ nodupJ_empty

/-- Sortedness and duplicate freedom of the R04 suggestion walk on a tree
whose object nodes have distinct keys. -/
theorem suggestFromJ_sorted {t : JVal} (toks : List String) (q : String)
    (ht : NodupJ t) :
    List.Pairwise (fun a b => strLeP a b ∧ a ≠ b) (suggestFromJ t toks q) := by
  induction toks generalizing t with
  | nil =>
    cases t with
    | str s => simp [suggestFromJ]
    | obj fs =>
      simp only [suggestFromJ]
      have hkeys : (fs.map Prod.fst).Nodup := by
        cases ht with
        | obj fs h1 h2 => exact h1
      have hnodup :
          ((fs.map Prod.fst).filter
            (fun k => k ≠ "_desc" && strStartsWith k q)).Nodup :=
        hkeys.filter _
      have hsorted := List.sorted_insertionSort strLeP
        ((fs.map Prod.fst).filter (fun k => k ≠ "_desc" && strStartsWith k q))
      have hnodup' := ((List.perm_insertionSort strLeP
        ((fs.map Prod.fst).filter
          (fun k => k ≠ "_desc" && strStartsWith k q))).nodup_iff).mpr hnodup
      exact hsorted.and hnodup'
  | cons tok toks ih =>
    cases t with
    | str s => simp [suggestFromJ]
    | obj fs =>
      simp only [suggestFromJ]
      cases hl : List.lookup (lowerStr tok) fs with
      | none => simp
      | some v =>
        cases v with
        | str s => simp
        | obj gs => exact ih (nodupJ_lookup ht hl)

/-! ## Whitespace-freedom of constructed edge keys -/

/-- A string all of whose characters are non-whitespace. -/
def noWsStr (s : String) : Prop := ∀ c ∈ s.data, isWs c = false

instance (s : String) : Decidable (noWsStr s) := by
  unfold noWsStr; exact inferInstance

/-- Every edge key of the tree, at every depth, contains no whitespace. -/
inductive NoWsTree : CNode → Prop where
  | mk : ∀ cs, (∀ p ∈ cs, noWsStr p.1) → (∀ p ∈ cs, NoWsTree p.2) →
      NoWsTree (.mk cs)

theorem noWsChild {t : CNode} {k : String} {c : CNode}
    (h : NoWsTree t) (hl : lookupChild t k = some c) : NoWsTree c := by
  cases h with
  | mk cs h1 h2 => exact h2 _ (lookup_mem hl)

theorem noWsTree_empty : NoWsTree (.mk []) := .mk [] (by simp) (by simp)

theorem noWsSet {t c : CNode} {k : String} (hk : noWsStr k)
    (ht : NoWsTree t) (hc : NoWsTree c) : NoWsTree (setChild t k c) := by
  cases ht with
  | mk cs h1 h2 =>
    refine .mk _ ?_ ?_
    · intro p hp
      rcases mem_setAssoc hp with h | h
      · rw [h]; exact hk
      · exact h1 _ h
    · intro p hp
      rcases mem_setAssoc hp with h | h
      · rw [h]; exact hc
      · exact h2 _ h

theorem noWsGetPath {t : CNode} (ps : List String)
    (ht : NoWsTree t) : NoWsTree (getPath t ps) := by
  induction ps generalizing t with
  | nil => exact ht
  | cons p ps ih =>
    simp only [getPath]
    cases hl : lookupChild t p with
    | none => exact ih noWsTree_empty
    | some c => exact ih (noWsChild ht hl)

theorem noWsSetPath {t c : CNode} {ps : List String}
    (hps : ∀ s ∈ ps, noWsStr s) (ht : NoWsTree t) (hc : NoWsTree c) :
    NoWsTree (setPath t ps c) := by
  induction ps generalizing t with
  | nil => exact hc
  | cons p ps ih =>
    simp only [setPath]
    refine noWsSet (hps p (by simp)) ht ?_
    have hps' : ∀ s ∈ ps, noWsStr s := fun s hs => hps s (by simp [hs])
    cases hl : lookupChild t p with
    | none => exact ih hps' noWsTree_empty
    | some c' => exact ih hps' (noWsChild ht hl)

theorem noWsAddOpts {opts : List String}
    (hopts : ∀ o ∈ opts, noWsStr (lowerStr o)) {t : CNode}
    (ht : NoWsTree t) : NoWsTree (addOpts opts t) := by
  induction opts generalizing t with
  | nil => exact ht
  | cons o os ih =>
    have ho : noWsStr (lowerStr o) := hopts o (by simp)
    have hos : ∀ o' ∈ os, noWsStr (lowerStr o') :=
      fun o' h' => hopts o' (by simp [h'])
    simp only [addOpts, List.foldl_cons]
    show NoWsTree (addOpts os _)
    cases hl : lookupChild t (lowerStr o) with
    | none => simpa [hl] using ih hos (noWsSet ho ht noWsTree_empty)
    | some c => simpa [hl] using ih hos ht

/-- Every piece produced by the whitespace split consists of non-whitespace
characters (the split separates on exactly the whitespace runs). -/
theorem splitWsGo_noWs :
    ∀ (l acc : List Char) (b : Bool),
      (∀ c ∈ acc, isWs c = false) →
      ∀ s ∈ splitWsGo l acc b, noWsStr s := by
  intro l
  induction l with
  | nil =>
    intro acc b hacc s hs c hc
    simp only [splitWsGo, List.mem_singleton] at hs
    subst hs
    exact hacc c (by simpa using hc)
  | cons ch cs ih =>
    intro acc b hacc s hs c hc
    by_cases hw : isWs ch
    · cases b with
      | true =>
        simp only [splitWsGo, if_pos hw] at hs
        exact ih acc true hacc s hs c hc
      | false =>
        simp only [splitWsGo, if_pos hw] at hs
        cases hs with
        | head =>
          exact hacc c (by simpa using hc)
        | tail _ hs' =>
          exact ih [] true (by simp) s hs' c hc
    · simp only [splitWsGo, if_neg hw] at hs
      refine ih (ch :: acc) false ?_ s hs c hc
      intro c' hc'
      rcases List.mem_cons.mp hc' with h | h
      · subst h; simpa using hw
      · exact hacc c' h

theorem tokenizeKey_noWs (k : String) : ∀ s ∈ tokenizeKey k, noWsStr s :=
  splitWsGo_noWs (lowerStr k).data [] false (by simp)

mutual
theorem traverse_noWs (topOpts : List String)
    (hopts : ∀ o ∈ topOpts, noWsStr (lowerStr o)) :
    ∀ (r : Raw) (t : CNode), NoWsTree t → NoWsTree (traverse topOpts r t)
  | .obj fs, t, h => by
    simpa only [traverse] using
      noWsAddOpts hopts (goFields_noWs topOpts hopts fs t h)
  | .nul, t, h => by simpa only [traverse] using noWsAddOpts hopts h
  | .arr _, t, h => by simpa only [traverse] using h
  | .prim, t, h => by simpa only [traverse] using h

theorem goFields_noWs (topOpts : List String)
    (hopts : ∀ o ∈ topOpts, noWsStr (lowerStr o)) :
    ∀ (fs : RawFields) (t : CNode), NoWsTree t → NoWsTree (goFields topOpts fs t)
  | .nil, t, h => by simpa only [goFields] using h
  | .cons k v rest, t, h => by
    simp only [goFields]
    apply goFields_noWs topOpts hopts rest
    by_cases hk : k = "_options"
    · simpa [hk] using h
    · cases htok : tokenizeKey k with
      | nil => simpa [hk, htok] using h
      | cons p ps =>
        simp only [if_neg hk, htok]
        have hparts : ∀ s ∈ p :: ps, noWsStr s := by
          rw [← htok]; exact tokenizeKey_noWs k
        refine noWsSetPath hparts h ?_
        by_cases hrec : isRecObj v
        · simpa [hrec] using
            traverse_noWs topOpts hopts v _ (noWsGetPath (p :: ps) h)
        · simpa [hrec] using noWsGetPath (p :: ps) h
end

/-! ## Whitespace-freedom of R04 edge keys

The R04 builder splits the trimmed command string on whitespace runs and
lowercases each token before it becomes a key, and the only other key it
ever writes is the whitespace-free metadata marker `_desc`; so every key of
every node it constructs is whitespace-free, unconditionally. -/

/-- Every key of every object node of an R04 tree value contains no
whitespace. -/
inductive NoWsJ : JVal → Prop where
  | str : ∀ s, NoWsJ (.str s)
  | obj : ∀ fs, (∀ p ∈ fs, noWsStr p.1) → (∀ p ∈ fs, NoWsJ p.2) →
      NoWsJ (.obj fs)

theorem noWsJ_empty : NoWsJ (.obj []) := .obj [] (by simp) (by simp)

theorem noWsJ_lookup {fs : List (String × JVal)} {k : String} {v : JVal}
    (h : NoWsJ (.obj fs)) (hl : List.lookup k fs = some v) : NoWsJ v := by
  cases h with
  | obj fs h1 h2 => exact h2 _ (lookup_mem hl)

theorem noWsJ_set {fs : List (String × JVal)} {k : String} {v : JVal}
    (hk : noWsStr k) (h : NoWsJ (.obj fs)) (hv : NoWsJ v) :
    NoWsJ (.obj (setAssoc fs k v)) := by
  cases h with
  | obj fs h1 h2 =>
    refine .obj _ ?_ ?_
    · intro p hp
      rcases mem_setAssoc hp with h' | h'
      · rw [h']; exact hk
      · exact h1 _ h'
    · intro p hp
      rcases mem_setAssoc hp with h' | h'
      · rw [h']; exact hv
      · exact h2 _ h'

theorem noWsJ_childFor {fs : List (String × JVal)} (pl : String)
    (h : NoWsJ (.obj fs)) : NoWsJ (childFor fs pl) := by
  unfold childFor
  cases hl : List.lookup pl fs with
  | none => exact noWsJ_empty
  | some v =>
    by_cases ht : jsTruthy v = true
    · simpa [ht] using noWsJ_lookup h hl
    · simp only [ht]
      simpa using noWsJ_empty

theorem noWsJ_setDesc {t : JVal} (h : NoWsJ t) (desc : String) :
    NoWsJ (setDesc t desc) := by
  cases h with
  | str s => exact .str s
  | obj fs h1 h2 =>
    exact noWsJ_set (by decide) (.obj fs h1 h2) (.str desc)

/-- Lowering preserves whitespace-freedom of a string. -/
theorem noWsStr_lower {s : String} (h : noWsStr s) : noWsStr (lowerStr s) := by
  intro c hc
  have hc' : c ∈ s.data.map jsToLower := hc
  obtain ⟨c0, hc0, rfl⟩ := List.mem_map.mp hc'
  rw [isWs_jsToLower]
  exact h c0 hc0

theorem noWsJ_insertParts :
    ∀ (parts : List String) (t : JVal) (desc : String),
      (∀ p ∈ parts, noWsStr p) → NoWsJ t →
      NoWsJ (insertParts t parts desc) := by
  intro parts
  induction parts with
  | nil => intro t desc _ h; simpa [insertParts] using h
  | cons p ps ih =>
    intro t desc hparts h
    cases t with
    | str s => exact .str s
    | obj fs =>
      simp only [insertParts]
      have hchild : NoWsJ (childFor fs (lowerStr p)) :=
        noWsJ_childFor (lowerStr p) h
      refine noWsJ_set (noWsStr_lower (hparts p (by simp))) h ?_
      split
      · exact noWsJ_setDesc hchild desc
      · exact ih _ desc (fun x hx => hparts x (by simp [hx])) hchild

theorem cmdParts_noWs (cmd : String) : ∀ p ∈ cmdParts cmd, noWsStr p :=
  splitWsGo_noWs (trimChars cmd.data) [] false (by simp)

theorem noWsJ_buildTree (entries : List (String × String)) :
    NoWsJ (buildTreeFromR04 entries) := by
  unfold buildTreeFromR04
  have hgen : ∀ (l : List (String × String)) (t : JVal), NoWsJ t →
      NoWsJ (l.foldl (fun t e => insertCmd t e.1 e.2) t) := by
    intro l
    induction l with
    | nil => intro t h; exact h
    | cons e l ih =>
      intro t h
      rw [List.foldl_cons]
      exact ih _ (noWsJ_insertParts _ _ _ (cmdParts_noWs e.1) h)
  exact hgen entries _ noWsJ_empty

/-- C7: for every line and cursor offset, the trigger decision declines
(returns the null result, distinct from an empty suggestion list) exactly
when the part of the line before the cursor is empty after stripping
leading whitespace — in both engine variants — and in particular on a
whitespace-only line and at offset 0; every other input triggers. -/
theorem c7_trigger_iff_nonblank :
    (∀ (line : String) (cursor : Nat),
        onTrigger line cursor = none ↔ ltrim (line.data.take cursor) = []) ∧
    (∀ (line : String) (cursor : Nat),
        onTriggerR04 line cursor = none ↔ ltrim (line.data.take cursor) = []) ∧
    onTrigger "   " 3 = none ∧ onTrigger "show ip" 0 = none ∧
    onTrigger "show " 5 ≠ none := by
  refine ⟨?_, ?_, rfl, rfl, by decide⟩
  · intro line cursor
    simp only [onTrigger]
    split
    · simp_all
    · simp_all
  · intro line cursor
    simp only [onTriggerR04]
    split
    · next h => simpa [trimChars_eq_nil_iff] using h
    · next h =>
      simp only [trimChars_eq_nil_iff] at h
      simp [h]

/-- C9 (counterexample): the claimed fixed evaluation order does not
describe the cited stream tokenizer `aosr8Language.token`. On the token
"#x" the tokenizer consumes the whole input as a line comment — a category
that does not occur in the claimed rule order at all, under which the token
would fall through to "none" — and on the token "123abc" its prefix-only
anchoring makes it consume just the three digits as a number although the
token is not a number and the claimed order would again give "none". -/
theorem c9_counterexample_stream_tokenizer :
    (tokenStream noKw noKw noKw noKw noKw "#x".data = (2, .lineComment) ∧
      firstMatch (specRules noKw noKw noKw noKw noKw) "#x" = .fallback) ∧
    (tokenStream noKw noKw noKw noKw noKw "123abc".data = (3, .numberTok) ∧
      isNum "123abc" = false ∧
      "123abc".data.length = 6 ∧
      firstMatch (specRules noKw noKw noKw noKw noKw) "123abc" = .fallback) :=
  ⟨⟨rfl, rfl⟩, rfl, rfl, rfl, rfl⟩

/-- C9 (amended): the code-block processor of `main.ts` assigns exactly one
category per token (it is a function into `TokClass`, with `fallback` as
the "none" category), and its decision is precisely first-matching-rule
evaluation of the rule table in the specified order: whitespace run, then
the literal patterns (IPv4 address, MAC address, number, quoted string),
then the five keyword sets in priority order, then the fallback. The
stream tokenizer of `syntax.ts` follows a different branch order —
whitespace, line comments, quoted string, then prefix-anchored IP/MAC/
number patterns, then keyword lookup on a maximal word, then a skipped
character — and may consume a proper prefix of a token (see the
counterexample above). -/
theorem c9_classify_is_first_match (kw1 kw2 kw3 kw4 kw5 : String → Bool)
    (part : String) :
    classify kw1 kw2 kw3 kw4 kw5 part =
      firstMatch (specRules kw1 kw2 kw3 kw4 kw5) part := rfl

/-- C8: accepting a suggestion replaces the trigger span with the token
followed by exactly one space and puts the cursor right after that space:
the new line is the old line with `[s, e)` replaced by `value ++ " "`, the
new cursor offset is `s + value.length + 1`, the new line up to the new
cursor is exactly the old prefix, the token and the space, and the R04
variant produces the same replaced line. -/
theorem c8_select_replaces_span (line value : String) (s e : Nat)
    (hs : s ≤ line.data.length) :
    (selectSuggestion line value s e).1.data =
        line.data.take s ++ ((value.data ++ [' ']) ++ line.data.drop e) ∧
      (selectSuggestion line value s e).2 = s + value.length + 1 ∧
      ((selectSuggestion line value s e).1.data).take
          ((selectSuggestion line value s e).2) =
        line.data.take s ++ (value.data ++ [' ']) ∧
      selectSuggestionR04 line value s e = (selectSuggestion line value s e).1 := by
  have hdata : (selectSuggestion line value s e).1.data =
      (line.data.take s ++ (value.data ++ [' '])) ++ line.data.drop e := by
    simp [selectSuggestion]
  have hvl : value.length = value.data.length := rfl
  have hlen : (line.data.take s ++ (value.data ++ [' '])).length =
      s + value.length + 1 := by
    simp only [List.length_append, List.length_take, List.length_cons,
      List.length_nil, hvl]
    omega
  refine ⟨by simpa using hdata, rfl, ?_, by simp [selectSuggestionR04, selectSuggestion]⟩
  show ((selectSuggestion line value s e).1.data).take (s + value.length + 1) = _
  rw [hdata, List.take_left' hlen]

/-- Witness for C8: Scenario E of the specification — accepting "isis" at
span `[8, 10)` on the line "show ip is" yields "show ip isis " with the
cursor at offset 13. -/
theorem c8_select_replaces_span_witness :
    ((selectSuggestion "show ip is" "isis" 8 10).1.data =
        "show ip is".data.take 8 ++
          (("isis".data ++ [' ']) ++ "show ip is".data.drop 10) ∧
      (selectSuggestion "show ip is" "isis" 8 10).2 = 8 + "isis".length + 1 ∧
      (((selectSuggestion "show ip is" "isis" 8 10).1.data).take
          ((selectSuggestion "show ip is" "isis" 8 10).2) =
        "show ip is".data.take 8 ++ ("isis".data ++ [' '])) ∧
      selectSuggestionR04 "show ip is" "isis" 8 10 =
        (selectSuggestion "show ip is" "isis" 8 10).1) ∧
    (selectSuggestion "show ip is" "isis" 8 10) = ("show ip isis ", 13) :=
  ⟨c8_select_replaces_span "show ip is" "isis" 8 10 (by decide), rfl⟩

/-- C1: for every entry of the R04 dictionary whose trimmed command string
is multi-token and whose tokens do not collide with the reserved `_desc`
key, traversing the constructed prefix tree token-by-token along the
command's lowercased tokens reaches a node carrying non-empty metadata (a
stored description in the `_desc` slot). -/
theorem c1_command_path_reaches_metadata (entries : List (String × String))
    (cmd desc : String) (hmem : (cmd, desc) ∈ entries)
    (hclean : ∀ e ∈ entries, ∀ p ∈ cmdParts e.1, lowerStr p ≠ "_desc")
    (hmulti : 2 ≤ (cmdParts cmd).length) :
    hasDescAt (buildTreeFromR04 entries) ((cmdParts cmd).map lowerStr) := by
  obtain ⟨l1, l2, rfl⟩ := List.append_of_mem hmem
  unfold buildTreeFromR04
  rw [List.foldl_append, List.foldl_cons]
  obtain ⟨fs, hfs⟩ := foldl_insertCmd_obj l1 []
  have hD : DescOnly (JVal.obj fs) := by
    rw [← hfs]
    exact foldl_insertCmd_descOnly l1 _ descOnly_empty
  have hne : cmdParts cmd ≠ [] := by
    intro e
    rw [e] at hmulti
    simp at hmulti
  have hcmdclean : ∀ p ∈ cmdParts cmd, lowerStr p ≠ "_desc" :=
    hclean (cmd, desc) (by simp)
  have hpath : ∀ q ∈ (cmdParts cmd).map lowerStr, q ≠ "_desc" := by
    intro q hq
    obtain ⟨p, hp, rfl⟩ := List.mem_map.mp hq
    exact hcmdclean p hp
  rw [hfs]
  refine foldl_insertCmd_preserves_hasDesc l2 _ _
    (insertParts_descOnly _ _ _ hD)
    (fun e he => hclean e (by simp [he])) hpath ?_
  exact insertParts_hasDesc (cmdParts cmd) fs desc hne hcmdclean hD

/-- Witness for C1: the single entry "show ip" with description "D1" is
reachable along the path `["show", "ip"]`, which carries the stored
description. -/
theorem c1_command_path_reaches_metadata_witness :
    ((("show ip", "D1") ∈ ([("show ip", "D1")] : List (String × String))) ∧
      (∀ e ∈ ([("show ip", "D1")] : List (String × String)),
        ∀ p ∈ cmdParts e.1, lowerStr p ≠ "_desc") ∧
      2 ≤ (cmdParts "show ip").length) ∧
    hasDescAt (buildTreeFromR04 [("show ip", "D1")])
      ((cmdParts "show ip").map lowerStr) :=
  ⟨⟨by decide, by decide, by decide⟩,
    c1_command_path_reaches_metadata [("show ip", "D1")] "show ip" "D1"
      (by decide) (by decide) (by decide)⟩

/-- Auxiliary for C2 (main variant): a failed resolution makes the walk of
`getSuggestions` return the empty list. -/
theorem suggestFrom_eq_nil_of_resolve_none :
    ∀ (toks : List String) (data : CNode) (q : String),
      resolvePath data toks = none → suggestFrom data toks q = [] := by
  intro toks
  induction toks with
  | nil => intro data q h; simp [resolvePath] at h
  | cons t ts ih =>
    intro data q h
    cases hl : lookupChild data t with
    | none => simp [suggestFrom, hl]
    | some c =>
      simp only [resolvePath, hl] at h
      simp only [suggestFrom, hl]
      exact ih c q h

/-- Auxiliary for C2 (R04 variant): a failed resolution makes the walk of
the R04 `getSuggestions` return the empty list. -/
theorem suggestFromJ_eq_nil_of_resolve_none :
    ∀ (toks : List String) (data : JVal) (q : String),
      resolveJ data (toks.map lowerStr) = none → suggestFromJ data toks q = [] := by
  intro toks
  induction toks with
  | nil => intro data q h; simp [resolveJ] at h
  | cons t ts ih =>
    intro data q h
    cases data with
    | str s => simp [suggestFromJ]
    | obj fields =>
      simp only [List.map_cons, resolveJ] at h
      simp only [suggestFromJ]
      cases hl : List.lookup (lowerStr t) fields with
      | none => simp [hl] at h ⊢
      | some v =>
        cases v with
        | str s => simp [hl] at h ⊢
        | obj gs =>
          simp only [hl] at h ⊢
          exact ih _ q h

/-- C2: whenever the completed-token path of a query dead-ends in the tree
(at some step the token has no matching child), the suggestion operation of
either variant returns the empty list; the operations are total functions,
so no error can be raised. -/
theorem c2_dead_end_gives_empty_list :
    (∀ (data : CNode) (line : String) (cursor : Nat) (info : TriggerInfo),
        onTrigger line cursor = some info →
        resolvePath data (pathTokens line info.startCh) = none →
        getSuggestions data line info.startCh info.query = []) ∧
    (∀ (dataJ : JVal) (toks : List String) (q : String),
        resolveJ dataJ (toks.map lowerStr) = none →
        suggestFromJ dataJ toks q = []) := by
  constructor
  · intro data line cursor info _ hres
    unfold getSuggestions
    exact suggestFrom_eq_nil_of_resolve_none _ _ _ hres
  · intro dataJ toks q hres
    exact suggestFromJ_eq_nil_of_resolve_none _ _ _ hres

/-- Witness for C2: with the dictionary containing only "show ip", the line
"bogus x" with the cursor at offset 7 triggers with span start 6 and query
"x"; the completed token "bogus" resolves to no child, and the suggestion
list is empty. -/
theorem c2_dead_end_gives_empty_list_witness :
    (onTrigger "bogus x" 7 =
        some ⟨6, "x"⟩ ∧
      resolvePath (normalizeTree (.obj (.cons "show ip" (.obj .nil) .nil)))
          (pathTokens "bogus x" 6) = none) ∧
    getSuggestions (normalizeTree (.obj (.cons "show ip" (.obj .nil) .nil)))
        "bogus x" 6 "x" = [] :=
  ⟨⟨rfl, rfl⟩,
    c2_dead_end_gives_empty_list.1
      (normalizeTree (.obj (.cons "show ip" (.obj .nil) .nil)))
      "bogus x" 7 ⟨6, "x"⟩ rfl rfl⟩

/-- C3: on the trees the two builders construct, every triggered query of
the corresponding engine returns a suggestion list that is strictly
ascending in the lexicographic order (`strLeP` with distinct neighbours)
and therefore free of duplicate tokens — for the `normalizeTree` engine and
for the R04 engine (whose filter excludes the `_desc` marker before the
sort). -/
theorem c3_suggestions_sorted_and_nodup :
    (∀ (raw : Raw) (line : String) (cursor : Nat) (out : List String),
        suggest (normalizeTree raw) line cursor = some out →
        List.Pairwise (fun a b => strLeP a b ∧ a ≠ b) out ∧ out.Nodup) ∧
    (∀ (entries : List (String × String)) (line : String) (cursor : Nat)
        (out : List String),
        suggestR04 (buildTreeFromR04 entries) line cursor = some out →
        List.Pairwise (fun a b => strLeP a b ∧ a ≠ b) out ∧ out.Nodup) := by
  constructor
  · intro raw line cursor out h
    unfold suggest at h
    cases htrig : onTrigger line cursor with
    | none => rw [htrig] at h; simp at h
    | some info =>
      rw [htrig] at h
      simp only [Option.map_some'] at h
      cases h
      have hsorted :=
        suggestFrom_sorted (pathTokens line info.startCh) (lowerStr info.query)
          (normalizeTree_nodup raw)
      refine ⟨hsorted, ?_⟩
      exact (hsorted.imp (fun h => h.2) : _)
  · intro entries line cursor out h
    unfold suggestR04 at h
    cases htrig : onTriggerR04 line cursor with
    | none => rw [htrig] at h; simp at h
    | some info =>
      rw [htrig] at h
      simp only [Option.map_some'] at h
      cases h
      have hsorted :=
        suggestFromJ_sorted (pathTokensR04 line info.startCh)
          (lowerStr info.query) (nodupJ_buildTree entries)
      refine ⟨hsorted, ?_⟩
      exact (hsorted.imp (fun h => h.2) : _)

/-- Witness for C3: the nested dictionary with keys "show ip"/"show arp"
queried on "show " at offset 5 yields the strictly sorted duplicate-free
list `["arp", "ip"]` from the `normalizeTree` engine, and the flat R04
dictionary with "show ip interface"/"show ip isis status" queried on
"show ip " at offset 8 yields `["interface", "isis"]` from the R04
engine. -/
theorem c3_suggestions_sorted_and_nodup_witness :
    (suggest
        (normalizeTree
          (.obj (.cons "show ip" (.obj .nil) (.cons "show arp" (.obj .nil) .nil))))
        "show " 5 = some ["arp", "ip"] ∧
      (List.Pairwise (fun a b => strLeP a b ∧ a ≠ b) ["arp", "ip"] ∧
        (["arp", "ip"] : List String).Nodup)) ∧
    (suggestR04
        (buildTreeFromR04
          [("show ip interface", "D1"), ("show ip isis status", "D2")])
        "show ip " 8 = some ["interface", "isis"] ∧
      (List.Pairwise (fun a b => strLeP a b ∧ a ≠ b) ["interface", "isis"] ∧
        (["interface", "isis"] : List String).Nodup)) :=
  ⟨⟨rfl,
      c3_suggestions_sorted_and_nodup.1
        (.obj (.cons "show ip" (.obj .nil) (.cons "show arp" (.obj .nil) .nil)))
        "show " 5 ["arp", "ip"] rfl⟩,
    ⟨rfl,
      c3_suggestions_sorted_and_nodup.2
        [("show ip interface", "D1"), ("show ip isis status", "D2")]
        "show ip " 8 ["interface", "isis"] rfl⟩⟩

/-! ## Case insensitivity of the query pipeline -/

theorem isWs_comp : isWs ∘ jsToLower = isWs := funext isWs_jsToLower

theorem notWs_comp :
    ((fun c => !isWs c) ∘ jsToLower) = fun c => !isWs c := by
  funext c
  simp [Function.comp, isWs_jsToLower c]

theorem map_jsToLower_idem (l : List Char) :
    (l.map jsToLower).map jsToLower = l.map jsToLower := by
  rw [List.map_map]
  exact List.map_congr_left fun a _ => jsToLower_idem a

theorem lowerStr_idem (s : String) : lowerStr (lowerStr s) = lowerStr s :=
  congrArg String.mk (map_jsToLower_idem s.data)

theorem ltrim_map (l : List Char) :
    ltrim (l.map jsToLower) = (ltrim l).map jsToLower := by
  unfold ltrim
  rw [List.dropWhile_map, isWs_comp]

theorem trimChars_map (l : List Char) :
    trimChars (l.map jsToLower) = (trimChars l).map jsToLower := by
  unfold trimChars
  rw [List.dropWhile_map, isWs_comp, ← List.map_reverse, List.dropWhile_map,
    isWs_comp, ← List.map_reverse]

/-- Lowercasing the line maps the trigger through lowercasing of the query:
the decision and the span are unchanged. -/
theorem onTrigger_lower (line : String) (cursor : Nat) :
    onTrigger (lowerStr line) cursor =
      (onTrigger line cursor).map fun i =>
        { startCh := i.startCh, query := lowerStr i.query } := by
  have hsub : (lowerStr line).data.take cursor =
      (line.data.take cursor).map jsToLower := by
    show (line.data.map jsToLower).take cursor = _
    rw [List.map_take]
  have hq : ∀ l : List Char,
      ((l.map jsToLower).reverse.takeWhile (fun c => !isWs c)).reverse =
        ((l.reverse.takeWhile (fun c => !isWs c)).reverse).map jsToLower := by
    intro l
    simp only [← List.map_reverse, List.takeWhile_map, notWs_comp]
  simp only [onTrigger, hsub, hq, ltrim_map]
  by_cases h : ltrim (line.data.take cursor) = []
  · simp [h]
  · rw [if_neg (by simpa using h), if_neg h]
    simp only [Option.map_some']
    congr 1
    simp [lowerStr, List.map_reverse]

/-- Lowercasing the line does not change the completed-token list, because
`getSuggestions` lowercases the prefix anyway and lowering is idempotent. -/
theorem pathTokens_lower (line : String) (startCh : Nat) :
    pathTokens (lowerStr line) startCh = pathTokens line startCh := by
  have hsub : (lowerStr line).data.take startCh =
      (line.data.take startCh).map jsToLower := by
    show (line.data.map jsToLower).take startCh = _
    rw [List.map_take]
  simp only [pathTokens, hsub, trimChars_map]
  by_cases h : trimChars (line.data.take startCh) = []
  · simp [h]
  · rw [if_neg (by simpa using h), if_neg h]
    have hx : lowerStr ⟨(trimChars (line.data.take startCh)).map jsToLower⟩ =
        lowerStr ⟨trimChars (line.data.take startCh)⟩ :=
      congrArg String.mk (map_jsToLower_idem _)
    rw [hx]

/-- C4: lowercasing the typed line before querying does not change the
result of the whole per-keystroke pipeline — neither the trigger decision
nor the suggestion list; matching is case-insensitive by construction
because tokens are lowercased both at tree-build time and at query time. -/
theorem c4_lowercase_line_same_suggestions (data : CNode) (line : String)
    (cursor : Nat) :
    suggest data (lowerStr line) cursor = suggest data line cursor := by
  unfold suggest
  rw [onTrigger_lower]
  cases onTrigger line cursor with
  | none => rfl
  | some info =>
    simp only [Option.map_some']
    congr 1
    unfold getSuggestions
    rw [pathTokens_lower, lowerStr_idem]

/-- C5 (code bug): the options loop of `normalizeTree` consults
`raw._options` — the top level — instead of `currentRaw._options`. A
nested `_options` list is therefore ignored entirely (first conjunct: the
spec requires the child "opt1" under "cmd", the code produces none), and a
top-level `_options` list is replayed at every recursed level (second
conjunct: "x" appears both at the root and under "a", though the spec
attaches it to the root level only). -/
theorem c5_options_level_bug :
    normalizeTree
        (.obj (.cons "cmd" (.obj (.cons "_options" (.arr ["opt1"]) .nil)) .nil)) =
      .mk [("cmd", .mk [])] ∧
    normalizeTree
        (.obj (.cons "_options" (.arr ["x"]) (.cons "a" (.obj .nil) .nil))) =
      .mk [("a", .mk [("x", .mk [])]), ("x", .mk [])] :=
  ⟨rfl, rfl⟩

/-- C6 (counterexample): an entry with an empty command string is not
skipped — it contributes an empty-string edge at the root — and an option
string containing a space becomes a whitespace-containing edge key, so the
claimed invariant "every edge key is a non-empty token containing no
whitespace" fails on this input. -/
theorem c6_counterexample_empty_key :
    normalizeTree (.obj (.cons "" .prim (.cons "_options" (.arr ["a b"]) .nil))) =
        .mk [("", .mk []), ("a b", .mk [])] ∧
      "" ∈ (CNode.mk [("", .mk []), ("a b", .mk [])]).keys ∧
      "a b" ∈ (CNode.mk [("", .mk []), ("a b", .mk [])]).keys ∧
      ' ' ∈ "a b".data :=
  ⟨rfl, by decide, by decide, by decide⟩

/-- C6 (amended): edge keys created from command-string keys never contain
whitespace in either builder — splitting on whitespace runs guarantees it
at every depth. For `normalizeTree` this extends to the whole tree whenever
the option strings of the (top-level) `_options` array are whitespace-free
(options are inserted verbatim); for `buildTreeFromR04` every key of every
node is whitespace-free unconditionally (the only non-split key it writes
is the whitespace-free `_desc` marker). Both builders are total functions,
so normalization never fails on a malformed entry. An empty command string,
however, is not skipped by either builder: it contributes an empty-string
edge (see the counterexample above), so edge keys can be empty. -/
theorem c6_amended_no_whitespace_edges :
    (∀ (raw : Raw), (∀ o ∈ topOptions raw, noWsStr (lowerStr o)) →
        NoWsTree (normalizeTree raw)) ∧
    (∀ (entries : List (String × String)),
        NoWsJ (buildTreeFromR04 entries)) :=
  ⟨fun raw hopts => traverse_noWs (topOptions raw) hopts raw _ noWsTree_empty,
    noWsJ_buildTree⟩

/-- Witness for the amended C6: a nested dictionary with a two-token key and
a whitespace-free top-level options list yields a tree all of whose edge
keys are whitespace-free, and so does a flat R04 dictionary. -/
theorem c6_amended_no_whitespace_edges_witness :
    ((∀ o ∈ topOptions
        (.obj (.cons "Show IP" (.obj (.cons "isis" .prim .nil))
          (.cons "_options" (.arr ["Help"]) .nil))),
      noWsStr (lowerStr o)) ∧
    NoWsTree (normalizeTree
      (.obj (.cons "Show IP" (.obj (.cons "isis" .prim .nil))
        (.cons "_options" (.arr ["Help"]) .nil))))) ∧
    NoWsJ (buildTreeFromR04 [("show ip isis status", "D2")]) :=
  ⟨⟨by decide,
      c6_amended_no_whitespace_edges.1
        (.obj (.cons "Show IP" (.obj (.cons "isis" .prim .nil))
          (.cons "_options" (.arr ["Help"]) .nil)))
        (by decide)⟩,
    c6_amended_no_whitespace_edges.2 [("show ip isis status", "D2")]⟩

end Aosr8
